import Mathlib

/-!
Verification of the libbitcoin-network session/channel core.

This file shallowly embeds the parts of the C++ sources relevant to the
stated properties: the error-code taxonomy (src/error.cpp), the stop
subscriber (include/bitcoin/network/impl/async/subscriber.ipp), the session
base class (src/sessions/session.cpp), the outbound and inbound sessions
(src/sessions/session_outbound.cpp, src/sessions/session_inbound.cpp), the
ping protocol (src/protocols/protocol_ping_60001.cpp), the headers and
bloom_filter_clear messages (src/messages/headers.cpp,
src/messages/bloom_filter_clear.cpp) and the authority endpoint type
(src/config/authority.cpp).

Stateful code becomes explicit state passing; handler invocations become
lists of invocation records so that "the handler fires exactly once with
code c" is a statement about a list.
-/

set_option autoImplicit false

namespace LibbitcoinNetwork

/-- Error codes from src/error.cpp (DEFINE_ERROR_T_MESSAGE_MAP) together with
`channel_conflict`, which is used by src/sessions/session.cpp and declared in
the error enum header that is not among the provided sources. -/
inductive Code where
  | success
  | unknown
  | bypassed
  | address_not_found
  | seeding_unsuccessful
  | file_load
  | file_save
  | file_system
  | bad_stream
  | listen_failed
  | accept_failed
  | oversubscribed
  | address_blocked
  | address_in_use
  | resolve_failed
  | connect_failed
  | invalid_heading
  | invalid_magic
  | oversized_payload
  | invalid_checksum
  | invalid_message
  | unknown_message
  | protocol_violation
  | invalid_configuration
  | operation_timeout
  | operation_canceled
  | operation_failed
  | channel_timeout
  | channel_dropped
  | channel_stopped
  | service_stopped
  | subscriber_stopped
  | channel_conflict
  deriving DecidableEq, Repr

/-!
## Subscriber (include/bitcoin/network/impl/async/subscriber.ipp)

Handlers are identified by natural numbers; an invocation is the pair of the
handler identity and the code argument it is posted with.
-/

/-- State of `subscriber<Args...>`: the `stopped_` flag and the `queue_` of
subscribed handlers. -/
structure Subscriber where
  stopped : Bool
  queue : List Nat
  deriving DecidableEq, Repr

/-- subscriber::subscribe: enqueue the handler unless stopped. -/
def Subscriber.subscribe (s : Subscriber) (h : Nat) : Subscriber :=
  if s.stopped then s else { s with queue := s.queue ++ [h] }

/-- subscriber::notify: post every queued handler with the argument, unless
the subscriber is stopped (`if (stopped_) return;`). -/
def Subscriber.notifyRun (s : Subscriber) (arg : Code) : List (Nat × Code) :=
  if s.stopped then [] else s.queue.map (fun h => (h, arg))

/-- subscriber::stop: if already stopped do nothing; otherwise set `stopped_`
to true, then call `notify(args...)` on the now-stopped object, then clear
the queue.  Returns the new state and the invocations that were posted. -/
def Subscriber.stopRun (s : Subscriber) (arg : Code) : Subscriber × List (Nat × Code) :=
  if s.stopped then (s, [])
  else
    let s1 : Subscriber := { stopped := true, queue := s.queue }
    let calls := s1.notifyRun arg
    ({ stopped := true, queue := [] }, calls)

/-!
## Session base class (src/sessions/session.cpp)

Channels are identified by natural numbers.  The session state carried here
is its `stopped_` flag and the `pending_` channel set (kept as a list).
-/

/-- State of `session`: `stopped_` (initially true) and `pending_`. -/
structure SessionState where
  stopped : Bool
  pending : List Nat
  deriving DecidableEq, Repr

/-- session::start: if not stopped, the handler gets operation_failed and the
state is unchanged; otherwise `stopped_` is set false and the handler gets
success. -/
def sessionStart (s : SessionState) : SessionState × Code :=
  if !s.stopped then (s, Code.operation_failed)
  else ({ s with stopped := false }, Code.success)

/-- Result of session::start_channel: the updated session state, the code the
channel is stopped with (if any), the invocations of the `started` and
`stopped` callbacks, and whether the handshake attach was posted to the
channel strand. -/
structure StartChannelOut where
  state : SessionState
  channelStop : Option Code
  startedCalls : List Code
  stoppedCalls : List Code
  handshakePosted : Bool
  deriving DecidableEq, Repr

/-- session::start_channel, up to the post to the channel strand.  `inbound`
is the virtual inbound() of the concrete session; `pendOk` is the result of
`network_.pend(channel->nonce())` (false on nonce collision). -/
def startChannel (s : SessionState) (inbound : Bool) (pendOk : Bool) (ch : Nat) :
    StartChannelOut :=
  if s.stopped then
    { state := s, channelStop := some Code.service_stopped,
      startedCalls := [Code.service_stopped], stoppedCalls := [Code.service_stopped],
      handshakePosted := false }
  else if !inbound && !pendOk then
    { state := s, channelStop := some Code.channel_conflict,
      startedCalls := [Code.channel_conflict], stoppedCalls := [Code.channel_conflict],
      handshakePosted := false }
  else
    { state := { s with pending := s.pending ++ [ch] }, channelStop := none,
      startedCalls := [], stoppedCalls := [], handshakePosted := true }

/-!
## Outbound session (src/sessions/session_outbound.cpp)
-/

/-- The configuration fields session_outbound::start and the batch logic
read. -/
structure OutboundSettings where
  outbound_connections : Nat
  host_pool_capacity : Nat
  connect_batch_size : Nat
  deriving DecidableEq, Repr

/-- session_outbound's `batch_` member: `max(connect_batch_size, 1)`. -/
def batchOf (st : OutboundSettings) : Nat :=
  max st.connect_batch_size 1

/-- session_outbound::start followed by handle_started: returns the final
session state, the code passed to the start handler, and the number of
connectors created (`outbound_connections` batches of `batch_` connectors
each; zero whenever start returns early). -/
def outboundStart (st : OutboundSettings) (addressCount : Nat) (s : SessionState) :
    SessionState × Code × Nat :=
  if st.outbound_connections = 0 || st.host_pool_capacity = 0 then
    (s, Code.success, 0)
  else if addressCount = 0 then
    (s, Code.address_not_found, 0)
  else
    let p := sessionStart s
    if p.2 = Code.success then (p.1, Code.success, st.outbound_connections * batchOf st)
    else (p.1, p.2, 0)

/-- A completion event of one connector of a batch: either a channel was
connected (no error) or the attempt failed with a code. -/
inductive ConnectEvent where
  | ok
  | fail (ec : Code)
  deriving DecidableEq, Repr

/-- One invocation of the batch handler: the code and whether a channel was
passed. -/
structure BatchCall where
  code : Code
  hasChannel : Bool
  deriving DecidableEq, Repr

/-- session_outbound::handle_batch for one connector completion.  The state
is the member `count_` (note: a member of the session, not of the batch).
Returns the new `count_`, the handler invocations, and whether the remaining
connectors were stopped. -/
def handleBatch (batch : Nat) (count : Nat) (ev : ConnectEvent) :
    Nat × List BatchCall × Bool :=
  let c := count + 1
  let finish := c = batch
  match ev with
  | ConnectEvent.ok =>
    if !finish then (batch, [{ code := Code.success, hasChannel := true }], true)
    else (c, [{ code := Code.success, hasChannel := true }], false)
  | ConnectEvent.fail _ =>
    if finish then (c, [{ code := Code.connect_failed, hasChannel := false }], false)
    else (c, [], false)

/-- Folding handle_batch over the completion events of one batch, starting
from the current value of the `count_` member.  Returns the final `count_`
and all batch-handler invocations. -/
def runBatch (batch : Nat) (count : Nat) : List ConnectEvent → Nat × List BatchCall
  | [] => (count, [])
  | ev :: evs =>
    let p := handleBatch batch count ev
    let q := runBatch batch p.1 evs
    (q.1, p.2.1 ++ q.2)

/-- The action session_outbound::handle_connect takes on a batch-handler
invocation. -/
inductive ConnectAction where
  | unwind
  | retryAfterTimeout
  | stopChannelServiceStopped
  | startChannel
  deriving DecidableEq, Repr

/-- session_outbound::handle_connect: service_stopped unwinds; any other
error restarts the batch on the timer after connect_timeout; success while
the session stopped stops the channel; otherwise the channel is driven
through start_channel. -/
def handleConnect (ec : Code) (sessionStopped : Bool) : ConnectAction :=
  if ec = Code.service_stopped then ConnectAction.unwind
  else if ec ≠ Code.success then ConnectAction.retryAfterTimeout
  else if sessionStopped then ConnectAction.stopChannelServiceStopped
  else ConnectAction.startChannel

/-!
## Inbound session (src/sessions/session_inbound.cpp)

Authorities are abstracted to natural-number identities for the accept
gate; only membership in the white/black lists matters there.
-/

/-- Configuration read by session_inbound::handle_accept. -/
structure InboundSettings where
  inbound_connections : Nat
  whitelist : List Nat
  blacklist : List Nat
  deriving DecidableEq, Repr

/-- How the accept loop is re-armed after handle_accept. -/
inductive Rearm where
  | immediate
  | deferred
  | no
  deriving DecidableEq, Repr

/-- Outcome of session_inbound::handle_accept. -/
structure AcceptOut where
  rearm : Rearm
  socketStopped : Bool
  channelStarted : Bool
  deriving DecidableEq, Repr

/-- Modelled from the spec: `session::whitelisted` is only declared in
headers not among the provided sources; the spec states "check whitelist
(if non-empty, require membership)". -/
def whitelisted (ws : List Nat) (a : Nat) : Bool :=
  ws.isEmpty || ws.contains a

/-- session::blacklisted: `contains(settings().blacklists, authority)`. -/
def blacklistedIn (bs : List Nat) (a : Nat) : Bool :=
  bs.contains a

/-- session_inbound::handle_accept.  `stopped` is the session's stopped();
`ec` the accept completion code; `authority` the socket's peer authority;
`count` the current inbound_channel_count(). -/
def handleAccept (stopped : Bool) (ec : Code) (authority : Nat)
    (st : InboundSettings) (count : Nat) : AcceptOut :=
  if stopped then
    { rearm := Rearm.no, socketStopped := ec = Code.success, channelStarted := false }
  else if ec ≠ Code.success then
    { rearm := Rearm.deferred, socketStopped := false, channelStarted := false }
  else if !whitelisted st.whitelist authority then
    { rearm := Rearm.immediate, socketStopped := true, channelStarted := false }
  else if blacklistedIn st.blacklist authority then
    { rearm := Rearm.immediate, socketStopped := true, channelStarted := false }
  else if st.inbound_connections ≤ count then
    { rearm := Rearm.immediate, socketStopped := true, channelStarted := false }
  else
    { rearm := Rearm.immediate, socketStopped := false, channelStarted := true }

/-!
## Ping protocol, 60001 tier (src/protocols/protocol_ping_60001.cpp)
-/

/-- State of protocol_ping_60001: whether the protocol is stopped and the
`pending_` flag. -/
structure PingState where
  protoStopped : Bool
  pending : Bool
  deriving DecidableEq, Repr

/-- Modelled from the spec: the protocol base class `stopped(ec)` overload is
not among the provided sources; it reports the protocol stopped or the
notification code being channel_stopped. -/
def pingStopped (ps : PingState) (ec : Code) : Bool :=
  ps.protoStopped || ec = Code.channel_stopped

/-- Outcome of send_ping: the new state, the code the channel is stopped
with (if any), the nonce subscribed for (if any), and the nonce of the sent
ping (if any). -/
structure SendPingOut where
  state : PingState
  stopCode : Option Code
  subscribedNonce : Option Nat
  sentNonce : Option Nat
  deriving DecidableEq, Repr

/-- protocol_ping_60001::send_ping, fired by the heartbeat timer with code
`ec`; `nonce` is the fresh pseudo-random u64. -/
def sendPing (ps : PingState) (ec : Code) (nonce : Nat) : SendPingOut :=
  if pingStopped ps ec then
    { state := ps, stopCode := none, subscribedNonce := none, sentNonce := none }
  else if ec ≠ Code.success && ec ≠ Code.channel_timeout then
    { state := { ps with protoStopped := true }, stopCode := some ec,
      subscribedNonce := none, sentNonce := none }
  else if ps.pending then
    { state := { ps with protoStopped := true }, stopCode := some Code.channel_timeout,
      subscribedNonce := none, sentNonce := none }
  else
    { state := { ps with pending := true }, stopCode := none,
      subscribedNonce := some nonce, sentNonce := some nonce }

/-- Outcome of handle_receive_pong: the new state, the code the channel is
stopped with (if any), and the handler's retention return value. -/
structure PongOut where
  state : PingState
  stopCode : Option Code
  retain : Bool
  deriving DecidableEq, Repr

/-- protocol_ping_60001::handle_receive_pong with the received message nonce
and the nonce captured by the subscription. -/
def handleReceivePong (ps : PingState) (ec : Code) (msgNonce : Nat) (subNonce : Nat) :
    PongOut :=
  if pingStopped ps ec then
    { state := ps, stopCode := none, retain := false }
  else if ec ≠ Code.success then
    { state := { ps with protoStopped := true }, stopCode := some ec, retain := false }
  else
    let ps1 := { ps with pending := false }
    if msgNonce ≠ subNonce then
      { state := { ps1 with protoStopped := true }, stopCode := some Code.bad_stream,
        retain := false }
    else
      { state := ps1, stopCode := none, retain := false }

/-!
## Message codec (src/messages/headers.cpp, src/messages/bloom_filter_clear.cpp)

The byte reader/writer are modelled from the bitcoin-system stream
interfaces the message code is written against (not among the provided
sources): a byte source with a sticky validity flag; reading past the end or
calling invalidate makes the source invalid, reads on an invalid source
yield zero, and nothing ever restores validity.  The writer is modelled as
the list of bytes written.
-/

/-- A byte source: remaining data and the sticky validity flag. -/
structure Reader where
  data : List Nat
  valid : Bool
  deriving DecidableEq, Repr

/-- reader::invalidate. -/
def Reader.invalidate (r : Reader) : Reader :=
  { r with valid := false }

/-- reader::read_byte: zero on an invalid source; exhaustion invalidates. -/
def readByte (r : Reader) : Nat × Reader :=
  if !r.valid then (0, r)
  else
    match r.data with
    | [] => (0, { r with valid := false })
    | b :: rest => (b, { data := rest, valid := true })

/-- Read `n` bytes in little-endian order into a value. -/
def readLittleEndian : Nat → Reader → Nat × Reader
  | 0, r => (0, r)
  | n + 1, r =>
    let p := readByte r
    let q := readLittleEndian n p.2
    (p.1 + 256 * q.1, q.2)

/-- reader::read_variable: Bitcoin variable-length integer. -/
def readVariable (r : Reader) : Nat × Reader :=
  let p := readByte r
  if p.1 < 0xfd then (p.1, p.2)
  else if p.1 = 0xfd then readLittleEndian 2 p.2
  else if p.1 = 0xfe then readLittleEndian 4 p.2
  else readLittleEndian 8 p.2

/-- reader::read_size(limit): read a variable integer; a value above the
limit invalidates the source and yields zero. -/
def readSize (limit : Nat) (r : Reader) : Nat × Reader :=
  let p := readVariable r
  if p.1 ≤ limit then (p.1, p.2) else (0, p.2.invalidate)

/-- Read a fixed number of raw bytes (front to back). -/
def readBytes : Nat → Reader → List Nat × Reader
  | 0, r => ([], r)
  | n + 1, r =>
    let p := readByte r
    let q := readBytes n p.2
    (p.1 :: q.1, q.2)

/-- chain::header::serialized_size(): 80 bytes. -/
def headerSerializedSize : Nat := 80

/-- Modelled from bitcoin-system: `chain::header{source}` consumes the 80
serialized header bytes; the header is kept as those bytes. -/
def readHeader (r : Reader) : List Nat × Reader :=
  readBytes headerSerializedSize r

/-- maximum count of get_headers (messages/enums/magic_numbers.hpp, not
among the provided sources; the value is irrelevant to the claims). -/
def maxGetHeaders : Nat := 2000

/-- Modelled from the spec: protocol level constants (spec section 6);
the level enum header is not among the provided sources. -/
def levelHeadersProtocol : Nat := 31800

/-- Modelled from the spec: maximum_protocol, the top supported version. -/
def levelMaximumProtocol : Nat := 70016

/-- Modelled from the spec: bip37 (relay, 70001). -/
def levelBip37 : Nat := 70001

/-- Modelled from the spec: bip61 (reject, 70002). -/
def levelBip61 : Nat := 70002

/-- Modelled from the spec: bip31 (ping nonce, 60001). -/
def levelBip31 : Nat := 60001

/-- headers::version_minimum = level::headers_protocol. -/
def headersVersionMinimum : Nat := levelHeadersProtocol

/-- headers::version_maximum = level::maximum_protocol. -/
def headersVersionMaximum : Nat := levelMaximumProtocol

/-- bloom_filter_clear::version_minimum = level::bip37. -/
def bloomFilterClearVersionMinimum : Nat := levelBip37

/-- bloom_filter_clear::version_maximum = level::maximum_protocol. -/
def bloomFilterClearVersionMaximum : Nat := levelMaximumProtocol

/-- The headers message value: the list of headers (each its 80 bytes). -/
structure HeadersMsg where
  headerPtrs : List (List Nat)
  deriving DecidableEq, Repr

/-- The loop body of headers::deserialize: read one header and its trailing
byte, invalidating the source when the trailing byte is not zero. -/
def headersReadLoop : Nat → Reader → List (List Nat) → List (List Nat) × Reader
  | 0, r, acc => (acc, r)
  | n + 1, r, acc =>
    let p := readHeader r
    let q := readByte p.2
    let r3 := if q.1 ≠ 0 then q.2.invalidate else q.2
    headersReadLoop n r3 (acc ++ [p.1])

/-- headers::deserialize(version, reader): invalidate when the version is
out of the message's range, then read the header count and that many
headers, each followed by a zero trail byte. -/
def headersDeserialize (version : Nat) (r : Reader) : HeadersMsg × Reader :=
  let r0 :=
    if version < headersVersionMinimum || headersVersionMaximum < version then
      r.invalidate
    else r
  let p := readSize maxGetHeaders r0
  let q := headersReadLoop p.1 p.2 []
  ({ headerPtrs := q.1 }, q.2)

/-- bloom_filter_clear::deserialize(version, reader): invalidate when the
version is out of range; the message has no payload. -/
def bloomFilterClearDeserialize (version : Nat) (r : Reader) : Unit × Reader :=
  let r0 :=
    if version < bloomFilterClearVersionMinimum ||
        bloomFilterClearVersionMaximum < version then
      r.invalidate
    else r
  ((), r0)

/-- The pointer-returning deserialize wrapper (headers.cpp lines 44-62 and
the generic message decode): run the reader-based deserialize over the data
and yield no message when the source ends invalid. -/
def deserializeFromData {α : Type} (des : Nat → Reader → α × Reader)
    (version : Nat) (data : List Nat) : Option α :=
  let p := des version { data := data, valid := true }
  if p.2.valid then some p.1 else none

/-- bitcoin-system variable_size(n): bytes a variable integer occupies. -/
def variableSize (n : Nat) : Nat :=
  if n < 0xfd then 1
  else if n ≤ 0xffff then 3
  else if n ≤ 0xffffffff then 5
  else 9

/-- Little-endian byte rendering at a fixed width. -/
def littleEndianBytes : Nat → Nat → List Nat
  | 0, _ => []
  | w + 1, n => n % 256 :: littleEndianBytes w (n / 256)

/-- writer::write_variable. -/
def writeVariable (n : Nat) : List Nat :=
  if n < 0xfd then [n]
  else if n ≤ 0xffff then 0xfd :: littleEndianBytes 2 n
  else if n ≤ 0xffffffff then 0xfe :: littleEndianBytes 4 n
  else 0xff :: littleEndianBytes 8 n

/-- headers::serialize(version, writer): the variable-length count, then for
each header its 80 bytes (header->to_data) and the zero trail byte.  The
writer is the emitted byte list. -/
def headersSerializedBytes (m : HeadersMsg) : List Nat :=
  writeVariable m.headerPtrs.length ++
    (m.headerPtrs.map (fun h => h ++ [0])).flatten

/-- headers::size(version), with the source's exact arithmetic:
`variable_size(count) + (count * serialized_size + sizeof(trail))`. -/
def headersSize (m : HeadersMsg) : Nat :=
  variableSize m.headerPtrs.length +
    (m.headerPtrs.length * headerSerializedSize + 1)

/-!
## Authority (src/config/authority.cpp)

The authority stores a boost IPv6 address (16 bytes) and a port.  The
address is carried here as its eight 16-bit groups (each below 65536); the
byte form used by the wire messages is recovered with `wordsToBytes`.  The
text conversions the source delegates to the platform (inet_ntop / boost
from_string, i.e. inet_pton) are modelled below from the C library
implementations the library runs against; everything else (the bracketing,
the ::ffff: prefixing, the ipv4-hostname regex, the authority regex and the
port cast) is translated from authority.cpp.
-/

/-- Character for a digit value below 36, as printf renders hex: 0-9 then
lowercase a-z. -/
def digitChar36 (n : Nat) : Char :=
  if n < 10 then Char.ofNat (48 + n) else Char.ofNat (87 + n)

/-- Hex digits of `n` (most significant first, no leading zeros, empty for
zero); the first argument is recursion fuel, adequate whenever `n ≤ fuel`. -/
def hexDigitsAux : Nat → Nat → List Char
  | 0, _ => []
  | fuel + 1, n =>
    if n = 0 then [] else hexDigitsAux fuel (n / 16) ++ [digitChar36 (n % 16)]

/-- Rendering of one group as `sprintf("%x", w)`: lowercase hex without
leading zeros, and "0" for zero. -/
def printHexWord (n : Nat) : List Char :=
  if n = 0 then ['0'] else hexDigitsAux n n

/-- Decimal digits of `n`, fuel-driven like `hexDigitsAux`. -/
def decDigitsAux : Nat → Nat → List Char
  | 0, _ => []
  | fuel + 1, n =>
    if n = 0 then [] else decDigitsAux fuel (n / 10) ++ [digitChar36 (n % 10)]

/-- Rendering of a number as `sprintf("%u", n)`. -/
def printDecNat (n : Nat) : List Char :=
  if n = 0 then ['0'] else decDigitsAux n n

/-- hexval of the C library: value of a hexadecimal digit character. -/
def hexVal (c : Char) : Option Nat :=
  if '0' ≤ c ∧ c ≤ '9' then some (c.toNat - 48)
  else if 'a' ≤ c ∧ c ≤ 'f' then some (c.toNat - 87)
  else if 'A' ≤ c ∧ c ≤ 'F' then some (c.toNat - 55)
  else none

/-- The value of a hex digit, defaulting to zero. -/
def hexNat (c : Char) : Nat :=
  (hexVal c).getD 0

/-- Whether a character is a decimal digit. -/
def isDigitChar (c : Char) : Bool :=
  '0' ≤ c && c ≤ '9'

/-- Value accumulated over hex digits as the pton loop does. -/
def hexListVal (ds : List Char) : Nat :=
  ds.foldl (fun a c => a * 16 + hexNat c) 0

/-- Value accumulated over decimal digits. -/
def decListVal (ds : List Char) : Nat :=
  ds.foldl (fun a c => a * 10 + (c.toNat - 48)) 0

/-- One step of the zero-run scan of inet_ntop6: `cur`/`best` are the
current and best (base, length) candidates. -/
def bestRunMerge (cur best : Option (Nat × Nat)) : Option (Nat × Nat) :=
  match cur with
  | none => best
  | some c =>
    match best with
    | none => some c
    | some b => if b.2 < c.2 then some c else some b

/-- The zero-run scan loop of inet_ntop6 over the words with their index. -/
def bestRunGo : List Nat → Nat → Option (Nat × Nat) → Option (Nat × Nat) →
    Option (Nat × Nat)
  | [], _, cur, best => bestRunMerge cur best
  | w :: ws, i, cur, best =>
    if w = 0 then
      match cur with
      | none => bestRunGo ws (i + 1) (some (i, 1)) best
      | some c => bestRunGo ws (i + 1) (some (c.1, c.2 + 1)) best
    else
      bestRunGo ws (i + 1) none (bestRunMerge cur best)

/-- Modelled from the C library inet_ntop6: the best run of zero words
(leftmost longest, discarded when shorter than two). -/
def bestRun (ws : List Nat) : Option (Nat × Nat) :=
  match bestRunGo ws 0 none none with
  | none => none
  | some b => if b.2 < 2 then none else some b

/-- Whether index `i` lies inside the best run. -/
def inRun (best : Option (Nat × Nat)) (i : Nat) : Bool :=
  match best with
  | none => false
  | some b => b.1 ≤ i && i < b.1 + b.2

/-- The encapsulated-IPv4 test of inet_ntop6 at index `i`. -/
def isV4Branch (ws : List Nat) (best : Option (Nat × Nat)) (i : Nat) : Bool :=
  match best with
  | none => false
  | some b =>
    i = 6 && b.1 = 0 &&
      (b.2 = 6 || (b.2 = 7 && ws.getD 7 0 ≠ 1) || (b.2 = 5 && ws.getD 5 0 = 0xffff))

/-- inet_ntop4: dotted decimal of four bytes. -/
def ntop4 (b0 b1 b2 b3 : Nat) : List Char :=
  printDecNat b0 ++ '.' :: printDecNat b1 ++ '.' :: printDecNat b2 ++
    '.' :: printDecNat b3

/-- The dotted tail inet_ntop6 prints for an encapsulated IPv4 address:
bytes 12..15, i.e. the two final words split into bytes. -/
def v4Tail (ws : List Nat) : List Char :=
  ntop4 (ws.getD 6 0 / 256) (ws.getD 6 0 % 256) (ws.getD 7 0 / 256) (ws.getD 7 0 % 256)

/-- The output loop of inet_ntop6 from index `i`; the first argument is
recursion fuel, adequate whenever `8 - i ≤ fuel`.  Inside the best run only
the base index emits a colon; outside, a separating colon precedes every
index but 0, and at index 6 the encapsulated-IPv4 form ends the loop. -/
def ntopLoopAux (ws : List Nat) (best : Option (Nat × Nat)) :
    Nat → Nat → List Char
  | 0, _ => []
  | fuel + 1, i =>
    if 8 ≤ i then []
    else if inRun best i then
      (if (match best with | some b => i = b.1 | none => false : Bool) then [':'] else []) ++
        ntopLoopAux ws best fuel (i + 1)
    else
      (if i ≠ 0 then [':'] else []) ++
        (if isV4Branch ws best i then v4Tail ws
         else printHexWord (ws.getD i 0) ++ ntopLoopAux ws best fuel (i + 1))

/-- Modelled from the C library inet_ntop6 (the platform routine behind
boost's address_v6::to_string): compressed lowercase IPv6 text of the eight
groups, with the trailing colon when the best run ends at index 8. -/
def ntop6 (ws : List Nat) : List Char :=
  let best := bestRun ws
  ntopLoopAux ws best 8 0 ++
    (match best with
     | some b => if b.1 + b.2 = 8 then [':'] else []
     | none => [])

/-- Modelled from the C library inet_pton4 loop: `done` are the completed
octets, `cur` the octet being accumulated, with the saw-digit flag and the
octet count. -/
def pton4Go : List Char → List Nat → Nat → Bool → Nat → Option (List Nat)
  | [], done, cur, sawDigit, octets =>
    if octets < 4 then none
    else if sawDigit then some (done ++ [cur]) else some (done ++ [cur])
  | c :: rest, done, cur, sawDigit, octets =>
    if isDigitChar c then
      let nv := cur * 10 + (c.toNat - 48)
      if sawDigit && cur = 0 then none
      else if 255 < nv then none
      else if sawDigit then pton4Go rest done nv sawDigit octets
      else if 4 < octets + 1 then none
      else pton4Go rest done nv true (octets + 1)
    else if c = '.' && sawDigit then
      if octets = 4 then none
      else pton4Go rest (done ++ [cur]) 0 false octets
    else none

/-- Modelled from the C library inet_pton4: four dotted decimal octets. -/
def pton4 (cs : List Char) : Option (List Nat) :=
  pton4Go cs [] 0 false 0

/-- Combine two bytes into one group word. -/
def bytePairWord (a b : Nat) : Nat :=
  a * 256 + b

/-- The gap expansion at the end of inet_pton6: insert the zero words where
the double colon stood; fails when no gap was seen and fewer than eight
words arrived, or a gap was seen with all eight already present. -/
def pton6Fin (words : List Nat) (colonp : Option Nat) : Option (List Nat) :=
  match colonp with
  | some c =>
    if words.length = 8 then none
    else some (words.take c ++ List.replicate (8 - words.length) 0 ++ words.drop c)
  | none => if words.length = 8 then some words else none

/-- End-of-input handling of inet_pton6: flush the accumulated group when a
digit was seen, then expand the gap. -/
def pton6End (words : List Nat) (colonp : Option Nat) (sawX : Bool) (val : Nat) :
    Option (List Nat) :=
  if sawX then
    if 8 ≤ words.length then none else pton6Fin (words ++ [val]) colonp
  else pton6Fin words colonp

/-- Modelled from the C library inet_pton6 loop: `words` are the flushed
groups, `colonp` the gap position, `sawX`/`digits`/`val` the state of the
group being accumulated, and `tok` the characters of the current token (for
the embedded dotted-IPv4 form). -/
def pton6Go : List Char → List Nat → Option Nat → Bool → Nat → Nat → List Char →
    Option (List Nat)
  | [], words, colonp, sawX, _, val, _ => pton6End words colonp sawX val
  | c :: rest, words, colonp, sawX, digits, val, tok =>
    match hexVal c with
    | some d =>
      if digits = 4 then none
      else
        let nv := val * 16 + d
        if 0xffff < nv then none
        else pton6Go rest words colonp true (digits + 1) nv (tok ++ [c])
    | none =>
      if c = ':' then
        if !sawX then
          if colonp.isSome then none
          else pton6Go rest words (some words.length) false 0 0 []
        else if rest = [] then none
        else if 8 ≤ words.length then none
        else pton6Go rest (words ++ [val]) colonp false 0 0 []
      else if c = '.' && words.length + 2 ≤ 8 then
        match pton4 (tok ++ c :: rest) with
        | some bs =>
          pton6End
            (words ++ [bytePairWord (bs.getD 0 0) (bs.getD 1 0),
              bytePairWord (bs.getD 2 0) (bs.getD 3 0)]) colonp false 0
        | none => none
      else none

/-- Modelled from the C library inet_pton6 (behind boost's
address_v6::from_string): parse IPv6 text into the eight group words.  A
leading colon must begin a double colon, and the loop then starts at the
second colon. -/
def pton6 (cs : List Char) : Option (List Nat) :=
  match cs with
  | [] => none
  | c :: rest =>
    if c = ':' then
      match rest with
      | c2 :: _ => if c2 = ':' then pton6Go rest [] none false 0 0 [] else none
      | [] => none
    else pton6Go cs [] none false 0 0 []

/-- The character class of the bracketed host of the authority regex,
`[0-9a-f:.]`. -/
def isClass6Char (c : Char) : Bool :=
  isDigitChar c || ('a' ≤ c && c ≤ 'f') || c = ':' || c = '.'

/-- to_ipv4_hostname: the regex `^::ffff:([0-9\.]+)$` applied to the IPv6
text; yields the captured dotted part on match. -/
def toIpv4Hostname (s : List Char) : Option (List Char) :=
  let rest := s.drop 7
  if s.take 7 = [':', ':', 'f', 'f', 'f', 'f', ':'] ∧ rest ≠ [] ∧
      rest.all (fun c => isDigitChar c || c = '.') then
    some rest
  else none

/-- to_ipv6_hostname: the bracketed IPv6 text. -/
def toIpv6Hostname (ws : List Nat) : List Char :=
  '[' :: ntop6 ws ++ [']']

/-- authority::to_hostname: the dotted IPv4 form when the IPv6 text is a
mapped address, the bracketed IPv6 text otherwise. -/
def toHostname (ws : List Nat) : List Char :=
  match toIpv4Hostname (ntop6 ws) with
  | some h => h
  | none => toIpv6Hostname ws

/-- to_host_name: bracket the host unless it has no colon or is already
bracketed. -/
def toHostName (host : List Char) : List Char :=
  if host.contains ':' = false || host.headD ' ' = '[' then host
  else '[' :: host ++ [']']

/-- The serialized port suffix of to_text: nothing for port zero. -/
def portSuffix (port : Nat) : List Char :=
  if port ≠ 0 then ':' :: printDecNat port else []

/-- to_text(host, port). -/
def toText (host : List Char) (port : Nat) : List Char :=
  toHostName host ++ portSuffix port

/-- operator<< on authority: to_text(to_hostname(), port()). -/
def formatAuthority (ws : List Nat) (port : Nat) : List Char :=
  toText (toHostname ws) port

/-- The port capture of the authority regex with the lexical_cast to
uint16_t: absent means port zero; otherwise one to five decimal digits
whose value must fit. -/
def parsePort (cs : List Char) : Option Nat :=
  match cs with
  | [] => some 0
  | c :: p =>
    if c = ':' then
      if p ≠ [] ∧ p.length ≤ 5 ∧ p.all isDigitChar then
        if decListVal p < 65536 then some (decListVal p) else none
      else none
    else none

/-- operator>> on authority: the regex
`^(([0-9\.]+)|\[([0-9a-f:\.]+)])(:([0-9]{1,5}))?$` splits the text into a
host and an optional port; a bracketed host parses as IPv6, a dotted host
is prefixed with ::ffff: and parsed as IPv6 (to_ipv6), and failures of the
regex, of from_string or of the port cast reject the input. -/
def parseAuthority (s : List Char) : Option (List Nat × Nat) :=
  match s with
  | [] => none
  | c :: rest =>
    if c = '[' then
      let inner := rest.takeWhile (fun x => x ≠ ']')
      let after := rest.dropWhile (fun x => x ≠ ']')
      if inner ≠ [] ∧ inner.all isClass6Char ∧ after.headD ' ' = ']' then
        match parsePort (after.drop 1), pton6 inner with
        | some port, some ws => some (ws, port)
        | _, _ => none
      else none
    else
      let host := s.takeWhile (fun x => x ≠ ':')
      let after := s.dropWhile (fun x => x ≠ ':')
      if host ≠ [] ∧ host.all (fun x => isDigitChar x || x = '.') then
        match parsePort after, pton6 ([':', ':', 'f', 'f', 'f', 'f', ':'] ++ host) with
        | some port, some ws => some (ws, port)
        | _, _ => none
      else none

/-- Group words of a 16-byte wire address (messages::ip_address order). -/
def bytesToWords : List Nat → List Nat
  | b0 :: b1 :: rest => (b0 * 256 + b1) :: bytesToWords rest
  | _ => []

/-- The colon-joined hex groups, as the non-compressed stretches of
inet_ntop6 output read. -/
def hexJoin : List Nat → List Char
  | [] => []
  | [w] => printHexWord w
  | w :: ws => printHexWord w ++ ':' :: hexJoin ws

/-- Rendering of the group range [i, stop) as the ntop loop emits it: a
separating colon before every index except 0.  Fuel is adequate whenever
`stop - i ≤ fuel`. -/
def groupsRender (ws : List Nat) : Nat → Nat → Nat → List Char
  | 0, _, _ => []
  | fuel + 1, i, stop =>
    if stop ≤ i then []
    else
      (if i ≠ 0 then [':'] else []) ++ printHexWord (ws.getD i 0) ++
        groupsRender ws fuel (i + 1) stop

/-- The slice of words [i, stop). -/
def sliceWords (ws : List Nat) (i stop : Nat) : List Nat :=
  (ws.drop i).take (stop - i)


/-!
## Validity propagation lemmas for the byte reader
-/

theorem readByte_invalid (r : Reader) (h : r.valid = false) :
    (readByte r).2.valid = false := by
  simp [readByte, h]

theorem readLittleEndian_invalid (n : Nat) (r : Reader) (h : r.valid = false) :
    (readLittleEndian n r).2.valid = false := by
  induction n generalizing r with
  | zero => simpa [readLittleEndian] using h
  | succ k ih =>
    simp only [readLittleEndian]
    exact ih _ (readByte_invalid r h)

theorem readVariable_invalid (r : Reader) (h : r.valid = false) :
    (readVariable r).2.valid = false := by
  have hb := readByte_invalid r h
  simp only [readVariable]
  split
  · exact hb
  · split
    · exact readLittleEndian_invalid 2 _ hb
    · split
      · exact readLittleEndian_invalid 4 _ hb
      · exact readLittleEndian_invalid 8 _ hb

theorem readSize_invalid (limit : Nat) (r : Reader) (h : r.valid = false) :
    (readSize limit r).2.valid = false := by
  have hv := readVariable_invalid r h
  simp only [readSize]
  split
  · exact hv
  · simp [Reader.invalidate]

theorem readBytes_invalid (n : Nat) (r : Reader) (h : r.valid = false) :
    (readBytes n r).2.valid = false := by
  induction n generalizing r with
  | zero => simpa [readBytes] using h
  | succ k ih =>
    simp only [readBytes]
    exact ih _ (readByte_invalid r h)

theorem headersReadLoop_invalid (n : Nat) (r : Reader) (acc : List (List Nat))
    (h : r.valid = false) : (headersReadLoop n r acc).2.valid = false := by
  induction n generalizing r acc with
  | zero => simpa [headersReadLoop] using h
  | succ k ih =>
    simp only [headersReadLoop]
    have h1 : (readHeader r).2.valid = false := readBytes_invalid _ r h
    have h2 : (readByte (readHeader r).2).2.valid = false := readByte_invalid _ h1
    split
    · exact ih _ _ (by simp [Reader.invalidate])
    · exact ih _ _ h2

/-!
## Claim theorems (sessions, subscriber, ping, codec)
-/

/-- C1: the claim asserts that every batch — including every batch started
after a previous batch has terminated — reports connect_failed exactly once
when all its attempts fail, and then restarts after connect_timeout.  The
code keeps `count_` as a session member that is never reset between batches,
so with `connect_batch_size = 2` the first all-fail batch fires the handler
exactly once with connect_failed (handle_connect then arms the retry timer),
but the restarted batch begins at `count_ = 2` and its all-fail run fires
the handler zero times: no connect_failed is reported and no restart is
ever scheduled again.  A batch with a winner still fires exactly one
success invocation. -/
theorem session_outbound_second_batch_failure_silent :
    runBatch 2 0 [ConnectEvent.fail Code.operation_failed,
      ConnectEvent.fail Code.operation_failed] =
      (2, [{ code := Code.connect_failed, hasChannel := false }]) ∧
    handleConnect Code.connect_failed false = ConnectAction.retryAfterTimeout ∧
    runBatch 2 2 [ConnectEvent.fail Code.operation_failed,
      ConnectEvent.fail Code.operation_failed] = (4, []) ∧
    runBatch 2 0 [ConnectEvent.ok, ConnectEvent.fail Code.operation_canceled] =
      (3, [{ code := Code.success, hasChannel := true }]) := by
  refine ⟨rfl, rfl, rfl, rfl⟩

/-- C2 counterexample: with outbound_connections = 0 the start handler is
invoked with success, not with the bypassed code the claim states. -/
theorem session_outbound_start_zero_is_success :
    (outboundStart ⟨0, 5, 2⟩ 3 ⟨true, []⟩).2.1 = Code.success ∧
    Code.success ≠ Code.bypassed := by
  refine ⟨rfl, by decide⟩

/-- C2 amended: session_outbound::start invokes its handler with success
(not bypassed) when the configured outbound_connections count or
host_pool_capacity is zero, and with address_not_found when the address
store is empty at start; in both cases no connectors are created and the
session state is unchanged. -/
theorem session_outbound_start_codes (st : OutboundSettings) (ac : Nat)
    (s : SessionState) :
    (st.outbound_connections = 0 ∨ st.host_pool_capacity = 0 →
      outboundStart st ac s = (s, Code.success, 0)) ∧
    (st.outbound_connections ≠ 0 → st.host_pool_capacity ≠ 0 → ac = 0 →
      outboundStart st ac s = (s, Code.address_not_found, 0)) := by
  constructor
  · intro h
    have hz : (st.outbound_connections = 0 || st.host_pool_capacity = 0) = true := by
      rcases h with h | h <;> simp [h]
    simp [outboundStart, hz]
  · intro h1 h2 h3
    simp [outboundStart, h1, h2, h3]

/-- C2 witness: concrete zero-configuration and empty-store starts. -/
theorem session_outbound_start_codes_witness :
    outboundStart ⟨0, 5, 2⟩ 3 ⟨true, []⟩ = (⟨true, []⟩, Code.success, 0) ∧
    outboundStart ⟨2, 5, 2⟩ 0 ⟨true, []⟩ = (⟨true, []⟩, Code.address_not_found, 0) :=
  ⟨(session_outbound_start_codes _ _ _).1 (Or.inl rfl),
   (session_outbound_start_codes _ _ _).2 (by decide) (by decide) rfl⟩

/-- C3 counterexample: a pong whose nonce (1) differs from the outstanding
ping's nonce (2) does clear the pending flag — the code clears it before the
nonce check — so the flag is not cleared "only when the pong nonce matches";
the channel is stopped with bad_stream as stated. -/
theorem ping_pong_mismatch_clears_pending :
    handleReceivePong ⟨false, true⟩ Code.success 1 2 =
      { state := ⟨true, false⟩, stopCode := some Code.bad_stream, retain := false } ∧
    (1 : Nat) ≠ 2 := by
  refine ⟨rfl, by decide⟩

/-- C3 amended: on a heartbeat firing while a previous ping is pending the
channel is stopped with channel_timeout and no ping is sent; otherwise the
fresh nonce is subscribed for and ping{nonce} is sent with the pending flag
set.  A received pong clears the pending flag regardless of its nonce (the
clear happens before the check); when the nonce mismatches the channel is
additionally stopped with bad_stream, and when it matches nothing else
happens. -/
theorem protocol_ping_60001_behavior (ps : PingState) (ec : Code)
    (nonce msgN subN : Nat) :
    (pingStopped ps ec = false → (ec = Code.success ∨ ec = Code.channel_timeout) →
      ps.pending = true →
      sendPing ps ec nonce =
        { state := { ps with protoStopped := true },
          stopCode := some Code.channel_timeout,
          subscribedNonce := none, sentNonce := none }) ∧
    (pingStopped ps ec = false → (ec = Code.success ∨ ec = Code.channel_timeout) →
      ps.pending = false →
      sendPing ps ec nonce =
        { state := { ps with pending := true }, stopCode := none,
          subscribedNonce := some nonce, sentNonce := some nonce }) ∧
    (pingStopped ps ec = false → ec = Code.success → msgN ≠ subN →
      handleReceivePong ps ec msgN subN =
        { state := ⟨true, false⟩, stopCode := some Code.bad_stream,
          retain := false }) ∧
    (pingStopped ps ec = false → ec = Code.success → msgN = subN →
      handleReceivePong ps ec msgN subN =
        { state := { ps with pending := false }, stopCode := none,
          retain := false }) := by
  refine ⟨?_, ?_, ?_, ?_⟩
  · intro hs hec hp
    rcases hec with rfl | rfl <;> simp [sendPing, hs, hp]
  · intro hs hec hp
    rcases hec with rfl | rfl <;> simp [sendPing, hs, hp]
  · intro hs hec hne
    subst hec
    simp [handleReceivePong, hs, hne]
  · intro hs hec heq
    subst hec
    simp [handleReceivePong, hs, heq]

/-- C3 witness: the concrete heartbeat and pong scenarios. -/
theorem protocol_ping_60001_behavior_witness :
    sendPing ⟨false, true⟩ Code.channel_timeout 9 =
      { state := ⟨true, true⟩, stopCode := some Code.channel_timeout,
        subscribedNonce := none, sentNonce := none } ∧
    sendPing ⟨false, false⟩ Code.channel_timeout 9 =
      { state := ⟨false, true⟩, stopCode := none,
        subscribedNonce := some 9, sentNonce := some 9 } ∧
    handleReceivePong ⟨false, true⟩ Code.success 9 9 =
      { state := ⟨false, false⟩, stopCode := none, retain := false } :=
  ⟨(protocol_ping_60001_behavior ⟨false, true⟩ Code.channel_timeout 9 9 9).1
      (by decide) (Or.inr rfl) rfl,
   (protocol_ping_60001_behavior ⟨false, false⟩ Code.channel_timeout 9 9 9).2.1
      (by decide) (Or.inr rfl) rfl,
   (protocol_ping_60001_behavior ⟨false, true⟩ Code.success 9 9 9).2.2.2
      (by decide) rfl rfl⟩

/-- C5: for a negotiated version outside the message's
[version_minimum, version_maximum] range, deserialize invalidates the
source, the invalidation is sticky through every subsequent read, and the
pointer-returning deserialize yields no message value — for the headers and
bloom_filter_clear messages, over every input byte sequence. -/
theorem deserialize_out_of_range_none (v : Nat) (data : List Nat) :
    (v < headersVersionMinimum ∨ headersVersionMaximum < v →
      deserializeFromData headersDeserialize v data = none) ∧
    (v < bloomFilterClearVersionMinimum ∨ bloomFilterClearVersionMaximum < v →
      deserializeFromData bloomFilterClearDeserialize v data = none) := by
  constructor
  · intro h
    have hcond : (v < headersVersionMinimum || headersVersionMaximum < v) = true := by
      rcases h with h | h <;> simp [h]
    have h0 : (Reader.invalidate { data := data, valid := true }).valid = false := rfl
    have h1 := readSize_invalid maxGetHeaders _ h0
    have h2 := headersReadLoop_invalid
      (readSize maxGetHeaders (Reader.invalidate { data := data, valid := true })).1
      (readSize maxGetHeaders (Reader.invalidate { data := data, valid := true })).2
      [] h1
    simp [deserializeFromData, headersDeserialize, hcond, h2]
  · intro h
    have hcond : (v < bloomFilterClearVersionMinimum ||
        bloomFilterClearVersionMaximum < v) = true := by
      rcases h with h | h <;> simp [h]
    simp [deserializeFromData, bloomFilterClearDeserialize, hcond, Reader.invalidate]

/-- C5 witness: version 0 is below both minima and yields no message. -/
theorem deserialize_out_of_range_none_witness :
    deserializeFromData headersDeserialize 0 [] = none ∧
    deserializeFromData bloomFilterClearDeserialize 0 [] = none :=
  ⟨(deserialize_out_of_range_none 0 []).1 (Or.inl (by decide)),
   (deserialize_out_of_range_none 0 []).2 (Or.inl (by decide))⟩

/-- C6: start_channel on a stopped session stops the channel with
service_stopped and fires both the started and stopped callbacks with
service_stopped; on a non-inbound session whose nonce pend fails it stops
the channel with channel_conflict and fires both callbacks with
channel_conflict; in both cases the session state (in particular the
pending set) is unchanged and no handshake is posted. -/
theorem session_start_channel_early (s : SessionState) (inbound pendOk : Bool)
    (ch : Nat) :
    (s.stopped = true →
      startChannel s inbound pendOk ch =
        { state := s, channelStop := some Code.service_stopped,
          startedCalls := [Code.service_stopped],
          stoppedCalls := [Code.service_stopped], handshakePosted := false }) ∧
    (s.stopped = false → inbound = false → pendOk = false →
      startChannel s inbound pendOk ch =
        { state := s, channelStop := some Code.channel_conflict,
          startedCalls := [Code.channel_conflict],
          stoppedCalls := [Code.channel_conflict], handshakePosted := false }) := by
  constructor
  · intro h
    simp [startChannel, h]
  · intro h hi hp
    simp [startChannel, h, hi, hp]

/-- C6 witness: a stopped session and a nonce collision at concrete inputs. -/
theorem session_start_channel_early_witness :
    startChannel ⟨true, []⟩ false true 3 =
      { state := ⟨true, []⟩, channelStop := some Code.service_stopped,
        startedCalls := [Code.service_stopped],
        stoppedCalls := [Code.service_stopped], handshakePosted := false } ∧
    startChannel ⟨false, []⟩ false false 3 =
      { state := ⟨false, []⟩, channelStop := some Code.channel_conflict,
        startedCalls := [Code.channel_conflict],
        stoppedCalls := [Code.channel_conflict], handshakePosted := false } :=
  ⟨(session_start_channel_early ⟨true, []⟩ false true 3).1 rfl,
   (session_start_channel_early ⟨false, []⟩ false false 3).2 rfl rfl rfl⟩

/-- C7: the claim states each handler subscribed before the first stop is
invoked exactly once with the first stop's arguments.  The code sets
`stopped_ = true` and only then calls notify, whose first line returns when
`stopped_` is set — so stop never posts any handler at all: the invocation
list of stop is empty for every subscriber state and argument, in
particular for a subscriber holding one handler subscribed before the
stop. -/
theorem subscriber_stop_fires_no_handlers (s : Subscriber) (arg : Code) :
    (s.stopRun arg).2 = [] ∧
    ((Subscriber.mk false []).subscribe 7).stopRun Code.service_stopped =
      (⟨true, []⟩, []) := by
  constructor
  · unfold Subscriber.stopRun Subscriber.notifyRun
    split
    · rfl
    · simp
  · rfl

/-- C8: on accept success with the session running, the accept loop is
immediately re-armed; the socket is dropped without a channel exactly when
the whitelist check fails, the authority is blacklisted, or the inbound
channel count has reached the configured cap, and otherwise a channel is
created and started. -/
theorem session_inbound_handle_accept_gate (a : Nat) (st : InboundSettings)
    (count : Nat) :
    (handleAccept false Code.success a st count).rearm = Rearm.immediate ∧
    (whitelisted st.whitelist a = false ∨ blacklistedIn st.blacklist a = true ∨
        st.inbound_connections ≤ count →
      handleAccept false Code.success a st count =
        { rearm := Rearm.immediate, socketStopped := true,
          channelStarted := false }) ∧
    (whitelisted st.whitelist a = true → blacklistedIn st.blacklist a = false →
      count < st.inbound_connections →
      handleAccept false Code.success a st count =
        { rearm := Rearm.immediate, socketStopped := false,
          channelStarted := true }) := by
  by_cases hw : whitelisted st.whitelist a <;>
    by_cases hb : blacklistedIn st.blacklist a <;>
      by_cases hc : st.inbound_connections ≤ count <;>
        refine ⟨by simp [handleAccept, hw, hb, hc], fun h => ?_, fun hw2 hb2 hc2 => ?_⟩ <;>
          first
            | exact absurd hc2 (Nat.not_lt.mpr hc)
            | simp_all [handleAccept, Nat.not_le]

/-- C8 witness: an admitted authority under capacity, and an oversubscribed
drop. -/
theorem session_inbound_handle_accept_gate_witness :
    handleAccept false Code.success 5 ⟨2, [], []⟩ 0 =
      { rearm := Rearm.immediate, socketStopped := false, channelStarted := true } ∧
    handleAccept false Code.success 5 ⟨2, [], []⟩ 2 =
      { rearm := Rearm.immediate, socketStopped := true, channelStarted := false } :=
  ⟨(session_inbound_handle_accept_gate 5 ⟨2, [], []⟩ 0).2.2 rfl rfl (by decide),
   (session_inbound_handle_accept_gate 5 ⟨2, [], []⟩ 2).2.1
      (Or.inr (Or.inr (by decide)))⟩

/-- C9: session::start invoked while already started invokes its handler
with operation_failed and leaves the state unchanged; invoked while stopped
it clears the stopped flag and invokes the handler with success. -/
theorem session_start_transitions (s : SessionState) :
    (s.stopped = false → sessionStart s = (s, Code.operation_failed)) ∧
    (s.stopped = true →
      sessionStart s = ({ s with stopped := false }, Code.success)) := by
  constructor
  · intro h
    simp [sessionStart, h]
  · intro h
    simp [sessionStart, h]

/-- C9 witness: both transitions at concrete states. -/
theorem session_start_transitions_witness :
    sessionStart ⟨false, []⟩ = (⟨false, []⟩, Code.operation_failed) ∧
    sessionStart ⟨true, []⟩ = (⟨false, []⟩, Code.success) :=
  ⟨(session_start_transitions ⟨false, []⟩).1 rfl,
   (session_start_transitions ⟨true, []⟩).2 rfl⟩

/-- C10: the claim states headers::size(version) equals the number of bytes
headers::serialize writes for every header count including zero.  The
source computes `variable_size(count) + (count * serialized_size +
sizeof(trail))`, adding the trail byte once instead of once per header: for
the empty headers message size() returns 2 while serialize writes exactly 1
byte (the zero count), and for two headers size() returns 162 while
serialize writes 163 bytes — contradicting the debug assertion in
headers::serialize that compares the write position against size(). -/
theorem headers_size_serialize_mismatch :
    headersSize { headerPtrs := [] } = 2 ∧
    (headersSerializedBytes { headerPtrs := [] }).length = 1 ∧
    headersSize { headerPtrs := [List.replicate 80 0, List.replicate 80 0] } = 162 ∧
    (headersSerializedBytes
        { headerPtrs := [List.replicate 80 0, List.replicate 80 0] }).length =
      163 := by
  refine ⟨rfl, rfl, rfl, rfl⟩

/-!
## Digit rendering lemmas
-/

theorem hexDigitsAux_fuel (f1 : Nat) : ∀ (f2 n : Nat), n ≤ f1 → n ≤ f2 →
    hexDigitsAux f1 n = hexDigitsAux f2 n := by
  induction f1 with
  | zero =>
    intro f2 n h1 _
    interval_cases n
    cases f2 <;> simp [hexDigitsAux]
  | succ a ih =>
    intro f2 n h1 h2
    by_cases hn : n = 0
    · subst hn
      cases f2 <;> simp [hexDigitsAux]
    · have hpos : 0 < n := Nat.pos_of_ne_zero hn
      cases f2 with
      | zero => omega
      | succ b =>
        simp only [hexDigitsAux, if_neg hn]
        have hdiv : n / 16 < n := Nat.div_lt_self hpos (by decide)
        rw [ih b (n / 16) (by omega) (by omega)]

theorem decDigitsAux_fuel (f1 : Nat) : ∀ (f2 n : Nat), n ≤ f1 → n ≤ f2 →
    decDigitsAux f1 n = decDigitsAux f2 n := by
  induction f1 with
  | zero =>
    intro f2 n h1 _
    interval_cases n
    cases f2 <;> simp [decDigitsAux]
  | succ a ih =>
    intro f2 n h1 h2
    by_cases hn : n = 0
    · subst hn
      cases f2 <;> simp [decDigitsAux]
    · have hpos : 0 < n := Nat.pos_of_ne_zero hn
      cases f2 with
      | zero => omega
      | succ b =>
        simp only [decDigitsAux, if_neg hn]
        have hdiv : n / 10 < n := Nat.div_lt_self hpos (by decide)
        rw [ih b (n / 10) (by omega) (by omega)]

theorem hexNat_digitChar36 (d : Nat) (hd : d < 16) :
    hexVal (digitChar36 d) = some d ∧ hexNat (digitChar36 d) = d := by
  interval_cases d <;> exact ⟨rfl, rfl⟩

theorem hexListVal_append_last (ds : List Char) (c : Char) :
    hexListVal (ds ++ [c]) = hexListVal ds * 16 + hexNat c := by
  simp [hexListVal, List.foldl_append]

theorem decListVal_append_last (ds : List Char) (c : Char) :
    decListVal (ds ++ [c]) = decListVal ds * 10 + (c.toNat - 48) := by
  simp [decListVal, List.foldl_append]

theorem hexDigitsAux_val (fuel : Nat) : ∀ n : Nat, n ≤ fuel →
    hexListVal (hexDigitsAux fuel n) = n := by
  induction fuel with
  | zero =>
    intro n h1
    interval_cases n
    rfl
  | succ a ih =>
    intro n h1
    by_cases hn : n = 0
    · subst hn
      rfl
    · have hpos : 0 < n := Nat.pos_of_ne_zero hn
      have hdiv : n / 16 < n := Nat.div_lt_self hpos (by decide)
      simp only [hexDigitsAux, if_neg hn]
      rw [hexListVal_append_last, ih (n / 16) (by omega),
        (hexNat_digitChar36 (n % 16) (Nat.mod_lt n (by decide))).2]
      omega

theorem decDigitsAux_val (fuel : Nat) : ∀ n : Nat, n ≤ fuel →
    decListVal (decDigitsAux fuel n) = n := by
  induction fuel with
  | zero =>
    intro n h1
    interval_cases n
    rfl
  | succ a ih =>
    intro n h1
    by_cases hn : n = 0
    · subst hn
      rfl
    · have hpos : 0 < n := Nat.pos_of_ne_zero hn
      have hdiv : n / 10 < n := Nat.div_lt_self hpos (by decide)
      simp only [decDigitsAux, if_neg hn]
      rw [decListVal_append_last, ih (n / 10) (by omega)]
      have hmod : n % 10 < 10 := Nat.mod_lt n (by decide)
      have hc : (digitChar36 (n % 10)).toNat - 48 = n % 10 := by
        set d := n % 10 with hd
        clear_value d
        interval_cases d <;> rfl
      omega

theorem printHexWord_val (n : Nat) : hexListVal (printHexWord n) = n := by
  unfold printHexWord
  by_cases hn : n = 0
  · simp [hn]
    rfl
  · rw [if_neg hn]
    exact hexDigitsAux_val n n le_rfl

theorem printDecNat_val (n : Nat) : decListVal (printDecNat n) = n := by
  unfold printDecNat
  by_cases hn : n = 0
  · simp [hn]
    rfl
  · rw [if_neg hn]
    exact decDigitsAux_val n n le_rfl

/-!
## Digit character and rendering facts
-/

theorem hexDigitsAux_zero (fuel : Nat) : hexDigitsAux fuel 0 = [] := by
  cases fuel <;> rfl

theorem decDigitsAux_zero (fuel : Nat) : decDigitsAux fuel 0 = [] := by
  cases fuel <;> rfl

theorem hexDigitsAux_eq (fuel n : Nat) (hle : n ≤ fuel) (hn : n ≠ 0) :
    hexDigitsAux fuel n = hexDigitsAux fuel (n / 16) ++ [digitChar36 (n % 16)] := by
  cases fuel with
  | zero => omega
  | succ k =>
    have hdiv : n / 16 < n := Nat.div_lt_self (Nat.pos_of_ne_zero hn) (by decide)
    conv_lhs => rw [hexDigitsAux, if_neg hn]
    congr 1
    exact hexDigitsAux_fuel k (k + 1) (n / 16) (by omega) (by omega)

theorem decDigitsAux_eq (fuel n : Nat) (hle : n ≤ fuel) (hn : n ≠ 0) :
    decDigitsAux fuel n = decDigitsAux fuel (n / 10) ++ [digitChar36 (n % 10)] := by
  cases fuel with
  | zero => omega
  | succ k =>
    have hdiv : n / 10 < n := Nat.div_lt_self (Nat.pos_of_ne_zero hn) (by decide)
    conv_lhs => rw [decDigitsAux, if_neg hn]
    congr 1
    exact decDigitsAux_fuel k (k + 1) (n / 10) (by omega) (by omega)

theorem printHexWord_lt16 (n : Nat) (h : n < 16) :
    printHexWord n = [digitChar36 n] := by
  by_cases hn : n = 0
  · subst hn
    rfl
  · unfold printHexWord
    rw [if_neg hn, hexDigitsAux_eq n n le_rfl hn]
    have h1 : n / 16 = 0 := Nat.div_eq_of_lt h
    have h2 : n % 16 = n := Nat.mod_eq_of_lt h
    rw [h1, h2, hexDigitsAux_zero]
    rfl

theorem printHexWord_lt256 (n : Nat) (h1 : 16 ≤ n) (h2 : n < 256) :
    printHexWord n = [digitChar36 (n / 16), digitChar36 (n % 16)] := by
  unfold printHexWord
  rw [if_neg (by omega), hexDigitsAux_eq n n le_rfl (by omega),
    hexDigitsAux_eq n (n / 16) (by omega) (by omega)]
  have ha : n / 16 / 16 = 0 := by omega
  have hb : n / 16 % 16 = n / 16 := Nat.mod_eq_of_lt (by omega)
  rw [ha, hb, hexDigitsAux_zero]
  rfl

theorem printHexWord_lt4096 (n : Nat) (h1 : 256 ≤ n) (h2 : n < 4096) :
    printHexWord n =
      [digitChar36 (n / 256), digitChar36 (n / 16 % 16), digitChar36 (n % 16)] := by
  unfold printHexWord
  rw [if_neg (by omega), hexDigitsAux_eq n n le_rfl (by omega),
    hexDigitsAux_eq n (n / 16) (by omega) (by omega),
    hexDigitsAux_eq n (n / 16 / 16) (by omega) (by omega)]
  have ha : n / 16 / 16 = n / 256 := by omega
  have hb : n / 256 / 16 = 0 := by omega
  have hc : n / 256 % 16 = n / 256 := Nat.mod_eq_of_lt (by omega)
  rw [ha, hb, hc, hexDigitsAux_zero]
  rfl

theorem printHexWord_lt65536 (n : Nat) (h1 : 4096 ≤ n) (h2 : n < 65536) :
    printHexWord n =
      [digitChar36 (n / 4096), digitChar36 (n / 256 % 16), digitChar36 (n / 16 % 16),
        digitChar36 (n % 16)] := by
  unfold printHexWord
  rw [if_neg (by omega), hexDigitsAux_eq n n le_rfl (by omega),
    hexDigitsAux_eq n (n / 16) (by omega) (by omega),
    hexDigitsAux_eq n (n / 16 / 16) (by omega) (by omega),
    hexDigitsAux_eq n (n / 16 / 16 / 16) (by omega) (by omega)]
  have ha : n / 16 / 16 = n / 256 := by omega
  rw [ha]
  have hb : n / 256 / 16 / 16 = 0 := by omega
  have hc : n / 256 / 16 % 16 = n / 4096 := by omega
  rw [hb, hc, hexDigitsAux_zero]
  rfl

theorem printDecNat_lt10 (n : Nat) (h : n < 10) :
    printDecNat n = [digitChar36 n] := by
  by_cases hn : n = 0
  · subst hn
    rfl
  · unfold printDecNat
    rw [if_neg hn, decDigitsAux_eq n n le_rfl hn]
    have h1 : n / 10 = 0 := Nat.div_eq_of_lt h
    have h2 : n % 10 = n := Nat.mod_eq_of_lt h
    rw [h1, h2, decDigitsAux_zero]
    rfl

theorem printDecNat_lt100 (n : Nat) (h1 : 10 ≤ n) (h2 : n < 100) :
    printDecNat n = [digitChar36 (n / 10), digitChar36 (n % 10)] := by
  unfold printDecNat
  rw [if_neg (by omega), decDigitsAux_eq n n le_rfl (by omega),
    decDigitsAux_eq n (n / 10) (by omega) (by omega)]
  have ha : n / 10 / 10 = 0 := by omega
  have hb : n / 10 % 10 = n / 10 := Nat.mod_eq_of_lt (by omega)
  rw [ha, hb, decDigitsAux_zero]
  rfl

theorem printDecNat_lt1000 (n : Nat) (h1 : 100 ≤ n) (h2 : n < 1000) :
    printDecNat n =
      [digitChar36 (n / 100), digitChar36 (n / 10 % 10), digitChar36 (n % 10)] := by
  unfold printDecNat
  rw [if_neg (by omega), decDigitsAux_eq n n le_rfl (by omega),
    decDigitsAux_eq n (n / 10) (by omega) (by omega),
    decDigitsAux_eq n (n / 10 / 10) (by omega) (by omega)]
  have ha : n / 10 / 10 = n / 100 := by omega
  have hb : n / 100 / 10 = 0 := by omega
  have hc : n / 100 % 10 = n / 100 := Nat.mod_eq_of_lt (by omega)
  rw [ha, hb, hc, decDigitsAux_zero]
  rfl

theorem hexCharFacts (d : Nat) (hd : d < 16) :
    hexVal (digitChar36 d) = some d ∧ isClass6Char (digitChar36 d) = true ∧
      digitChar36 d ≠ ':' ∧ digitChar36 d ≠ ']' ∧ digitChar36 d ≠ '[' := by
  interval_cases d <;> exact ⟨rfl, rfl, by decide, by decide, by decide⟩

theorem decCharFacts (d : Nat) (hd : d < 10) :
    isDigitChar (digitChar36 d) = true ∧ (digitChar36 d).toNat - 48 = d ∧
      digitChar36 d ≠ ':' ∧ digitChar36 d ≠ '.' ∧ digitChar36 d ≠ 'f' ∧
      digitChar36 d ≠ '[' := by
  interval_cases d <;> exact ⟨rfl, rfl, by decide, by decide, by decide, by decide⟩

theorem printHexWord_ne_nil (n : Nat) : printHexWord n ≠ [] := by
  by_cases hn : n = 0
  · subst hn
    decide
  · unfold printHexWord
    rw [if_neg hn, hexDigitsAux_eq n n le_rfl hn]
    simp

theorem printDecNat_ne_nil (n : Nat) : printDecNat n ≠ [] := by
  by_cases hn : n = 0
  · subst hn
    decide
  · unfold printDecNat
    rw [if_neg hn, decDigitsAux_eq n n le_rfl hn]
    simp

theorem hexDigitsAux_chars (fuel : Nat) : ∀ n, n ≤ fuel →
    ∀ c ∈ hexDigitsAux fuel n, ∃ d, d < 16 ∧ c = digitChar36 d := by
  induction fuel with
  | zero =>
    intro n _ c hc
    simp [hexDigitsAux] at hc
  | succ k ih =>
    intro n hle c hc
    by_cases hn : n = 0
    · subst hn
      simp [hexDigitsAux] at hc
    · simp only [hexDigitsAux, if_neg hn, List.mem_append, List.mem_singleton] at hc
      rcases hc with hc | hc
      · exact ih (n / 16) (by omega) c hc
      · exact ⟨n % 16, Nat.mod_lt n (by decide), hc⟩

theorem printHexWord_chars (n : Nat) :
    ∀ c ∈ printHexWord n, ∃ d, d < 16 ∧ c = digitChar36 d := by
  intro c hc
  by_cases hn : n = 0
  · subst hn
    simp [printHexWord] at hc
    exact ⟨0, by decide, hc⟩
  · unfold printHexWord at hc
    rw [if_neg hn] at hc
    exact hexDigitsAux_chars n n le_rfl c hc

theorem decDigitsAux_chars (fuel : Nat) : ∀ n, n ≤ fuel →
    ∀ c ∈ decDigitsAux fuel n, ∃ d, d < 10 ∧ c = digitChar36 d := by
  induction fuel with
  | zero =>
    intro n _ c hc
    simp [decDigitsAux] at hc
  | succ k ih =>
    intro n hle c hc
    by_cases hn : n = 0
    · subst hn
      simp [decDigitsAux] at hc
    · simp only [decDigitsAux, if_neg hn, List.mem_append, List.mem_singleton] at hc
      rcases hc with hc | hc
      · exact ih (n / 10) (by omega) c hc
      · exact ⟨n % 10, Nat.mod_lt n (by decide), hc⟩

theorem printDecNat_chars (n : Nat) :
    ∀ c ∈ printDecNat n, ∃ d, d < 10 ∧ c = digitChar36 d := by
  intro c hc
  by_cases hn : n = 0
  · subst hn
    simp [printDecNat] at hc
    exact ⟨0, by decide, hc⟩
  · unfold printDecNat at hc
    rw [if_neg hn] at hc
    exact decDigitsAux_chars n n le_rfl c hc

theorem printHexWord_headD (n : Nat) :
    ∃ d, d < 16 ∧ (printHexWord n).headD ' ' = digitChar36 d := by
  rcases hh : printHexWord n with _ | ⟨c, cs⟩
  · exact absurd hh (printHexWord_ne_nil n)
  · have := printHexWord_chars n c (by rw [hh]; exact List.mem_cons_self c cs)
    rcases this with ⟨d, hd, hcd⟩
    exact ⟨d, hd, by simp [hcd]⟩

theorem printDecNat_headD (n : Nat) :
    ∃ d, d < 10 ∧ (printDecNat n).headD ' ' = digitChar36 d := by
  rcases hh : printDecNat n with _ | ⟨c, cs⟩
  · exact absurd hh (printDecNat_ne_nil n)
  · have := printDecNat_chars n c (by rw [hh]; exact List.mem_cons_self c cs)
    rcases this with ⟨d, hd, hcd⟩
    exact ⟨d, hd, by simp [hcd]⟩

theorem decDigitsAux_length (fuel : Nat) : ∀ n k, n ≤ fuel → n < 10 ^ k →
    (decDigitsAux fuel n).length ≤ k := by
  induction fuel with
  | zero =>
    intro n k _ _
    simp [decDigitsAux]
  | succ f ih =>
    intro n k hle hk
    by_cases hn : n = 0
    · subst hn
      simp [decDigitsAux]
    · have hkpos : k ≠ 0 := by
        intro h0
        subst h0
        simp at hk
        omega
      obtain ⟨k', rfl⟩ : ∃ k', k = k' + 1 := ⟨k - 1, by omega⟩
      simp only [decDigitsAux, if_neg hn, List.length_append, List.length_singleton]
      have hdivk : n / 10 < 10 ^ k' := by
        rw [Nat.div_lt_iff_lt_mul (by decide)]
        calc n < 10 ^ (k' + 1) := hk
        _ = 10 ^ k' * 10 := by ring
      have := ih (n / 10) k' (by omega) hdivk
      omega

theorem printDecNat_length_le5 (n : Nat) (h : n < 65536) :
    (printDecNat n).length ≤ 5 := by
  by_cases hn : n = 0
  · subst hn
    decide
  · unfold printDecNat
    rw [if_neg hn]
    exact decDigitsAux_length n n 5 le_rfl (by omega)

/-!
## inet_pton stepping lemmas
-/

theorem pton6Go_digit (c : Char) (d : Nat) (rest : List Char) (words : List Nat)
    (colonp : Option Nat) (sawX : Bool) (digits val : Nat) (tok : List Char)
    (hc : hexVal c = some d) (hdg : digits ≠ 4) (hv : val * 16 + d ≤ 0xffff) :
    pton6Go (c :: rest) words colonp sawX digits val tok =
      pton6Go rest words colonp true (digits + 1) (val * 16 + d) (tok ++ [c]) := by
  simp only [pton6Go, hc]
  rw [if_neg hdg, if_neg (Nat.not_lt.mpr hv)]

theorem pton6Go_colonFlush (rest : List Char) (words : List Nat)
    (colonp : Option Nat) (digits val : Nat) (tok : List Char)
    (hrest : rest ≠ []) (hlen : words.length < 8) :
    pton6Go (':' :: rest) words colonp true digits val tok =
      pton6Go rest (words ++ [val]) colonp false 0 0 [] := by
  simp only [pton6Go, show hexVal ':' = none from rfl]
  simp [hrest, Nat.not_le.mpr hlen]

theorem pton6Go_gap (rest : List Char) (words : List Nat) (digits val : Nat)
    (tok : List Char) :
    pton6Go (':' :: rest) words none false digits val tok =
      pton6Go rest words (some words.length) false 0 0 [] := by
  simp only [pton6Go, show hexVal ':' = none from rfl]
  simp

theorem pton6Go_dot (rest : List Char) (words : List Nat) (colonp : Option Nat)
    (sawX : Bool) (digits val : Nat) (tok : List Char)
    (hlen : words.length + 2 ≤ 8) :
    pton6Go ('.' :: rest) words colonp sawX digits val tok =
      (match pton4 (tok ++ '.' :: rest) with
       | some bs =>
         pton6End
           (words ++ [bytePairWord (bs.getD 0 0) (bs.getD 1 0),
             bytePairWord (bs.getD 2 0) (bs.getD 3 0)]) colonp false 0
       | none => none) := by
  simp only [pton6Go, show hexVal '.' = none from rfl]
  simp [hlen]

theorem pton6Go_hexTok (w : Nat) (rest : List Char) (words : List Nat)
    (colonp : Option Nat) (tok : List Char) (hw : w < 65536) :
    pton6Go (printHexWord w ++ rest) words colonp false 0 0 tok =
      pton6Go rest words colonp true (printHexWord w).length w
        (tok ++ printHexWord w) := by
  by_cases h1 : w < 16
  · rw [printHexWord_lt16 w h1]
    rw [List.cons_append,
      pton6Go_digit _ w _ _ _ _ _ _ _ (by
        have := (hexCharFacts w h1).1
        simpa using this) (by decide) (by omega)]
    norm_num
  · by_cases h2 : w < 256
    · rw [printHexWord_lt256 w (by omega) h2]
      rw [List.cons_append, List.cons_append,
        pton6Go_digit _ (w / 16) _ _ _ _ _ _ _
          ((hexCharFacts (w / 16) (by omega)).1) (by decide) (by omega),
        pton6Go_digit _ (w % 16) _ _ _ _ _ _ _
          ((hexCharFacts (w % 16) (by omega)).1) (by decide) (by omega)]
      have hval : (0 * 16 + w / 16) * 16 + w % 16 = w := by omega
      rw [hval]
      simp
    · by_cases h3 : w < 4096
      · rw [printHexWord_lt4096 w (by omega) h3]
        rw [List.cons_append, List.cons_append, List.cons_append,
          pton6Go_digit _ (w / 256) _ _ _ _ _ _ _
            ((hexCharFacts (w / 256) (by omega)).1) (by decide) (by omega),
          pton6Go_digit _ (w / 16 % 16) _ _ _ _ _ _ _
            ((hexCharFacts (w / 16 % 16) (by omega)).1) (by decide) (by omega),
          pton6Go_digit _ (w % 16) _ _ _ _ _ _ _
            ((hexCharFacts (w % 16) (by omega)).1) (by decide) (by omega)]
        have hval : ((0 * 16 + w / 256) * 16 + w / 16 % 16) * 16 + w % 16 = w := by
          omega
        rw [hval]
        simp
      · rw [printHexWord_lt65536 w (by omega) hw]
        rw [List.cons_append, List.cons_append, List.cons_append, List.cons_append,
          pton6Go_digit _ (w / 4096) _ _ _ _ _ _ _
            ((hexCharFacts (w / 4096) (by omega)).1) (by decide) (by omega),
          pton6Go_digit _ (w / 256 % 16) _ _ _ _ _ _ _
            ((hexCharFacts (w / 256 % 16) (by omega)).1) (by decide) (by omega),
          pton6Go_digit _ (w / 16 % 16) _ _ _ _ _ _ _
            ((hexCharFacts (w / 16 % 16) (by omega)).1) (by decide) (by omega),
          pton6Go_digit _ (w % 16) _ _ _ _ _ _ _
            ((hexCharFacts (w % 16) (by omega)).1) (by decide) (by omega)]
        have hval :
            (((0 * 16 + w / 4096) * 16 + w / 256 % 16) * 16 + w / 16 % 16) * 16 +
              w % 16 = w := by omega
        rw [hval]
        simp

theorem pton4Go_digitFirst (c : Char) (rest : List Char) (done : List Nat)
    (octets : Nat) (hc : isDigitChar c = true) (hv : c.toNat - 48 ≤ 255)
    (ho : octets + 1 ≤ 4) :
    pton4Go (c :: rest) done 0 false octets =
      pton4Go rest done (c.toNat - 48) true (octets + 1) := by
  simp only [pton4Go, hc, if_pos rfl]
  simp [Nat.not_lt.mpr hv, Nat.not_lt.mpr ho]

theorem pton4Go_digitNext (c : Char) (rest : List Char) (done : List Nat)
    (cur octets : Nat) (hc : isDigitChar c = true) (hcur : cur ≠ 0)
    (hv : cur * 10 + (c.toNat - 48) ≤ 255) :
    pton4Go (c :: rest) done cur true octets =
      pton4Go rest done (cur * 10 + (c.toNat - 48)) true octets := by
  simp only [pton4Go, hc, if_pos rfl]
  simp [hcur, Nat.not_lt.mpr hv]

theorem pton4Go_dot (rest : List Char) (done : List Nat) (cur octets : Nat)
    (ho : octets ≠ 4) :
    pton4Go ('.' :: rest) done cur true octets =
      pton4Go rest (done ++ [cur]) 0 false octets := by
  simp only [pton4Go, show isDigitChar '.' = false from rfl]
  simp [ho]

theorem pton4Go_end (done : List Nat) (cur octets : Nat) (sawD : Bool)
    (ho : 4 ≤ octets) :
    pton4Go [] done cur sawD octets = some (done ++ [cur]) := by
  simp only [pton4Go]
  rw [if_neg (Nat.not_lt.mpr ho)]
  cases sawD <;> simp

theorem pton4Go_decTok (a : Nat) (rest : List Char) (done : List Nat)
    (octets : Nat) (ha : a < 256) (ho : octets + 1 ≤ 4) :
    pton4Go (printDecNat a ++ rest) done 0 false octets =
      pton4Go rest done a true (octets + 1) := by
  by_cases h1 : a < 10
  · rw [printDecNat_lt10 a h1, List.cons_append,
      pton4Go_digitFirst _ _ _ _ ((decCharFacts a h1).1) (by
        rw [(decCharFacts a h1).2.1]
        omega) ho, (decCharFacts a h1).2.1]
    simp
  · by_cases h2 : a < 100
    · rw [printDecNat_lt100 a (by omega) h2, List.cons_append, List.cons_append,
        pton4Go_digitFirst _ _ _ _ ((decCharFacts (a / 10) (by omega)).1) (by
          rw [(decCharFacts (a / 10) (by omega)).2.1]
          omega) ho, (decCharFacts (a / 10) (by omega)).2.1,
        pton4Go_digitNext _ _ _ _ _ ((decCharFacts (a % 10) (by omega)).1)
          (by omega) (by
            rw [(decCharFacts (a % 10) (by omega)).2.1]
            omega), (decCharFacts (a % 10) (by omega)).2.1]
      have : a / 10 * 10 + a % 10 = a := by omega
      rw [this]
      simp
    · rw [printDecNat_lt1000 a (by omega) (by omega), List.cons_append,
        List.cons_append, List.cons_append,
        pton4Go_digitFirst _ _ _ _ ((decCharFacts (a / 100) (by omega)).1) (by
          rw [(decCharFacts (a / 100) (by omega)).2.1]
          omega) ho, (decCharFacts (a / 100) (by omega)).2.1,
        pton4Go_digitNext _ _ _ _ _ ((decCharFacts (a / 10 % 10) (by omega)).1)
          (by omega) (by
            rw [(decCharFacts (a / 10 % 10) (by omega)).2.1]
            omega), (decCharFacts (a / 10 % 10) (by omega)).2.1]
      have hmid : a / 100 * 10 + a / 10 % 10 = a / 10 := by omega
      rw [hmid,
        pton4Go_digitNext _ _ _ _ _ ((decCharFacts (a % 10) (by omega)).1)
          (by omega) (by
            rw [(decCharFacts (a % 10) (by omega)).2.1]
            omega), (decCharFacts (a % 10) (by omega)).2.1]
      have : a / 10 * 10 + a % 10 = a := by omega
      rw [this]
      simp

theorem pton4_ntop4 (a b c d : Nat) (ha : a < 256) (hb : b < 256) (hc : c < 256)
    (hd : d < 256) : pton4 (ntop4 a b c d) = some [a, b, c, d] := by
  have hshow : ntop4 a b c d =
      printDecNat a ++ ('.' :: (printDecNat b ++ ('.' :: (printDecNat c ++
        ('.' :: printDecNat d))))) := by
    unfold ntop4
    simp
  unfold pton4
  rw [hshow]
  rw [pton4Go_decTok a _ _ 0 ha (by omega), pton4Go_dot _ _ _ 1 (by omega),
    pton4Go_decTok b _ _ 1 hb (by omega), pton4Go_dot _ _ _ 2 (by omega),
    pton4Go_decTok c _ _ 2 hc (by omega), pton4Go_dot _ _ _ 3 (by omega)]
  rw [show printDecNat d = printDecNat d ++ ([] : List Char) from by simp,
    pton4Go_decTok d _ _ 3 hd (by omega), pton4Go_end _ _ 4 _ (by omega)]
  simp

theorem pton6Go_decTokHex (a : Nat) (rest : List Char) (words : List Nat)
    (colonp : Option Nat) (tok : List Char) (ha : a < 256) :
    ∃ dg v, pton6Go (printDecNat a ++ rest) words colonp false 0 0 tok =
      pton6Go rest words colonp true dg v (tok ++ printDecNat a) := by
  by_cases h1 : a < 10
  · refine ⟨1, a, ?_⟩
    rw [printDecNat_lt10 a h1, List.cons_append,
      pton6Go_digit _ a _ _ _ _ _ _ _ ((hexCharFacts a (by omega)).1) (by decide)
        (by omega)]
    norm_num
  · by_cases h2 : a < 100
    · refine ⟨2, (0 * 16 + a / 10) * 16 + a % 10, ?_⟩
      rw [printDecNat_lt100 a (by omega) h2, List.cons_append, List.cons_append,
        pton6Go_digit _ (a / 10) _ _ _ _ _ _ _
          ((hexCharFacts (a / 10) (by omega)).1) (by decide) (by omega),
        pton6Go_digit _ (a % 10) _ _ _ _ _ _ _
          ((hexCharFacts (a % 10) (by omega)).1) (by decide) (by omega)]
      simp
    · refine ⟨3, ((0 * 16 + a / 100) * 16 + a / 10 % 10) * 16 + a % 10, ?_⟩
      rw [printDecNat_lt1000 a (by omega) (by omega), List.cons_append,
        List.cons_append, List.cons_append,
        pton6Go_digit _ (a / 100) _ _ _ _ _ _ _
          ((hexCharFacts (a / 100) (by omega)).1) (by decide) (by omega),
        pton6Go_digit _ (a / 10 % 10) _ _ _ _ _ _ _
          ((hexCharFacts (a / 10 % 10) (by omega)).1) (by decide) (by omega),
        pton6Go_digit _ (a % 10) _ _ _ _ _ _ _
          ((hexCharFacts (a % 10) (by omega)).1) (by decide) (by omega)]
      simp

theorem v4Tail_eq (ws : List Nat) :
    v4Tail ws =
      printDecNat (ws.getD 6 0 / 256) ++ ('.' :: (printDecNat (ws.getD 6 0 % 256) ++
        ('.' :: (printDecNat (ws.getD 7 0 / 256) ++
          ('.' :: printDecNat (ws.getD 7 0 % 256)))))) := by
  unfold v4Tail ntop4
  simp

theorem pton6Go_v4Tail (ws : List Nat) (words : List Nat) (colonp : Option Nat)
    (h6 : ws.getD 6 0 < 65536) (h7 : ws.getD 7 0 < 65536)
    (hlen : words.length + 2 ≤ 8) :
    pton6Go (v4Tail ws) words colonp false 0 0 [] =
      pton6End (words ++ [ws.getD 6 0, ws.getD 7 0]) colonp false 0 := by
  rw [v4Tail_eq]
  set a6 := ws.getD 6 0 with ha6
  set a7 := ws.getD 7 0 with ha7
  clear_value a6 a7
  obtain ⟨dg, v, heq⟩ := pton6Go_decTokHex (a6 / 256)
    ('.' :: (printDecNat (a6 % 256) ++
      ('.' :: (printDecNat (a7 / 256) ++
        ('.' :: printDecNat (a7 % 256)))))) words colonp [] (by omega)
  rw [heq, pton6Go_dot _ _ _ _ _ _ _ (by omega)]
  have harg : ([] : List Char) ++ printDecNat (a6 / 256) ++
      '.' :: (printDecNat (a6 % 256) ++
        ('.' :: (printDecNat (a7 / 256) ++
          ('.' :: printDecNat (a7 % 256))))) =
      ntop4 (a6 / 256) (a6 % 256) (a7 / 256) (a7 % 256) := by
    unfold ntop4
    simp
  rw [harg, pton4_ntop4 _ _ _ _ (by omega) (by omega) (by omega) (by omega)]
  have hp1 : bytePairWord (a6 / 256) (a6 % 256) = a6 := by
    unfold bytePairWord
    omega
  have hp2 : bytePairWord (a7 / 256) (a7 % 256) = a7 := by
    unfold bytePairWord
    omega
  simp [hp1, hp2]

theorem hexJoin_cons (w : Nat) (ws : List Nat) (h : ws ≠ []) :
    hexJoin (w :: ws) = printHexWord w ++ ':' :: hexJoin ws := by
  cases ws with
  | nil => exact absurd rfl h
  | cons w' tl => rfl

theorem hexJoin_ne_nil (ws : List Nat) (h : ws ≠ []) : hexJoin ws ≠ [] := by
  cases ws with
  | nil => exact absurd rfl h
  | cons w tl =>
    cases tl with
    | nil =>
      simpa [hexJoin] using printHexWord_ne_nil w
    | cons w' tl' =>
      rw [hexJoin_cons _ _ (by simp)]
      simp

theorem pton6Go_segEnd (ws : List Nat) : ∀ (words : List Nat)
    (colonp : Option Nat) (tok : List Char), ws ≠ [] → (∀ w ∈ ws, w < 65536) →
    words.length + ws.length ≤ 8 →
    pton6Go (hexJoin ws) words colonp false 0 0 tok =
      pton6Fin (words ++ ws) colonp := by
  induction ws with
  | nil =>
    intro _ _ _ h
    exact absurd rfl h
  | cons w tl ih =>
    intro words colonp tok _ hw hlen
    cases tl with
    | nil =>
      have hw0 : w < 65536 := hw w (by simp)
      rw [show hexJoin [w] = printHexWord w ++ ([] : List Char) from by
          simp [hexJoin],
        pton6Go_hexTok w _ _ _ _ hw0]
      show pton6End words colonp true w = _
      unfold pton6End
      rw [if_pos rfl, if_neg (by simp at hlen; omega)]
    | cons w' tl' =>
      have hw0 : w < 65536 := hw w (by simp)
      rw [hexJoin_cons w (w' :: tl') (by simp), pton6Go_hexTok w _ _ _ _ hw0,
        pton6Go_colonFlush _ _ _ _ _ _ (hexJoin_ne_nil _ (by simp))
          (by simp at hlen ⊢; omega),
        ih (words ++ [w]) colonp [] (by simp) (fun x hx => hw x (by simp [hx]))
          (by simp at hlen ⊢; omega)]
      simp

theorem pton6Go_seg (ws : List Nat) : ∀ (rest : List Char) (words : List Nat)
    (colonp : Option Nat) (tok : List Char), ws ≠ [] → (∀ w ∈ ws, w < 65536) →
    words.length + ws.length ≤ 8 → rest ≠ [] →
    pton6Go (hexJoin ws ++ ':' :: rest) words colonp false 0 0 tok =
      pton6Go rest (words ++ ws) colonp false 0 0 [] := by
  induction ws with
  | nil =>
    intro _ _ _ _ h
    exact absurd rfl h
  | cons w tl ih =>
    intro rest words colonp tok _ hw hlen hrest
    cases tl with
    | nil =>
      have hw0 : w < 65536 := hw w (by simp)
      rw [show hexJoin [w] ++ ':' :: rest = printHexWord w ++ (':' :: rest) from by
          simp [hexJoin],
        pton6Go_hexTok w _ _ _ _ hw0,
        pton6Go_colonFlush _ _ _ _ _ _ hrest (by simp at hlen; omega)]
    | cons w' tl' =>
      have hw0 : w < 65536 := hw w (by simp)
      rw [show hexJoin (w :: w' :: tl') ++ ':' :: rest =
          printHexWord w ++ (':' :: (hexJoin (w' :: tl') ++ ':' :: rest)) from by
          rw [hexJoin_cons w (w' :: tl') (by simp)]
          simp,
        pton6Go_hexTok w _ _ _ _ hw0,
        pton6Go_colonFlush _ _ _ _ _ _ (by simp [hexJoin_ne_nil _ ]) 
          (by simp at hlen ⊢; omega),
        ih rest (words ++ [w]) colonp [] (by simp)
          (fun x hx => hw x (by simp [hx])) (by simp at hlen ⊢; omega) hrest]
      simp

theorem pton6_entryPlain (cs : List Char) (hne : cs ≠ [])
    (hh : cs.headD ' ' ≠ ':') :
    pton6 cs = pton6Go cs [] none false 0 0 [] := by
  cases cs with
  | nil => exact absurd rfl hne
  | cons c rest =>
    simp at hh
    simp [pton6, hh]

theorem pton6_entryGap (rest : List Char) :
    pton6 (':' :: ':' :: rest) = pton6Go (':' :: rest) [] none false 0 0 [] := by
  simp [pton6]

/-!
## Best-run facts
-/

theorem drop_cons_getD (l : List Nat) (i w : Nat) (tl : List Nat)
    (h : l.drop i = w :: tl) : l.getD i 0 = w := by
  have h1 : (l.drop i).getD 0 0 = w := by
    rw [h]
    rfl
  rw [List.getD_eq_getElem?_getD] at h1 ⊢
  rw [List.getElem?_drop] at h1
  simpa using h1

theorem drop_cons_drop (l : List Nat) (i w : Nat) (tl : List Nat)
    (h : l.drop i = w :: tl) : l.drop (i + 1) = tl := by
  have := List.drop_drop 1 i l
  rw [h] at this
  simpa using this.symm

theorem drop_cons_lt (l : List Nat) (i w : Nat) (tl : List Nat)
    (h : l.drop i = w :: tl) : i < l.length := by
  by_contra hn
  rw [List.drop_eq_nil_of_le (by omega)] at h
  exact List.noConfusion h

theorem bestRunMerge_cases (cur best r : Option (Nat × Nat))
    (h : bestRunMerge cur best = r) : r = cur ∨ r = best := by
  unfold bestRunMerge at h
  rcases cur with _ | c
  · right
    exact h.symm
  · rcases best with _ | b
    · left
      exact h.symm
    · dsimp at h
      split at h
      · left
        exact h.symm
      · right
        exact h.symm

theorem bestRunGo_spec (tail : List Nat) : ∀ (full : List Nat) (i : Nat)
    (cur best : Option (Nat × Nat)),
    full.drop i = tail →
    i ≤ full.length →
    (∀ c, cur = some c → c.1 + c.2 = i ∧
      (∀ j, c.1 ≤ j → j < i → full.getD j 0 = 0)) →
    (∀ b, best = some b → b.1 + b.2 ≤ i ∧
      (∀ j, b.1 ≤ j → j < b.1 + b.2 → full.getD j 0 = 0)) →
    ∀ r, bestRunGo tail i cur best = some r →
      r.1 + r.2 ≤ full.length ∧
        (∀ j, r.1 ≤ j → j < r.1 + r.2 → full.getD j 0 = 0) := by
  induction tail with
  | nil =>
    intro full i cur best _ hile hcur hbest r hr
    unfold bestRunGo at hr
    rcases bestRunMerge_cases cur best (some r) hr with hc | hb
    · obtain ⟨h1, h2⟩ := hcur r hc.symm
      exact ⟨by omega, fun j hj1 hj2 => h2 j hj1 (by omega)⟩
    · obtain ⟨h1, h2⟩ := hbest r hb.symm
      exact ⟨by omega, h2⟩
  | cons w tl ih =>
    intro full i cur best hdrop hile hcur hbest r hr
    have hgetD := drop_cons_getD full i w tl hdrop
    have hdrop1 := drop_cons_drop full i w tl hdrop
    have hlt := drop_cons_lt full i w tl hdrop
    unfold bestRunGo at hr
    by_cases hw : w = 0
    · rw [if_pos hw] at hr
      rcases hcc : cur with _ | c
      · rw [hcc] at hr
        dsimp at hr
        refine ih full (i + 1) (some (i, 1)) best hdrop1 (by omega) ?_ ?_ r hr
        · intro c' hc'
          injection hc' with hc'
          subst hc'
          refine ⟨by omega, fun j hj1 hj2 => ?_⟩
          have : j = i := by omega
          subst this
          rw [hgetD, hw]
        · intro b hb
          obtain ⟨h1, h2⟩ := hbest b hb
          exact ⟨by omega, h2⟩
      · rw [hcc] at hr
        dsimp at hr
        obtain ⟨hc1, hc2⟩ := hcur c hcc
        refine ih full (i + 1) (some (c.1, c.2 + 1)) best hdrop1 (by omega) ?_ ?_ r hr
        · intro c' hc'
          injection hc' with hc'
          subst hc'
          refine ⟨by omega, fun j hj1 hj2 => ?_⟩
          by_cases hji : j < i
          · exact hc2 j hj1 hji
          · have : j = i := by omega
            subst this
            rw [hgetD, hw]
        · intro b hb
          obtain ⟨h1, h2⟩ := hbest b hb
          exact ⟨by omega, h2⟩
    · rw [if_neg hw] at hr
      refine ih full (i + 1) none (bestRunMerge cur best) hdrop1 (by omega)
        (by intro c hc; exact Option.noConfusion hc) ?_ r hr
      intro b hb
      rcases bestRunMerge_cases cur best (some b) hb with hc | hbb
      · obtain ⟨h1, h2⟩ := hcur b hc.symm
        exact ⟨by omega, fun j hj1 hj2 => h2 j hj1 (by omega)⟩
      · obtain ⟨h1, h2⟩ := hbest b hbb.symm
        exact ⟨by omega, h2⟩

theorem bestRun_spec (ws : List Nat) (b l : Nat)
    (h : bestRun ws = some (b, l)) :
    2 ≤ l ∧ b + l ≤ ws.length ∧
      (∀ j, b ≤ j → j < b + l → ws.getD j 0 = 0) := by
  unfold bestRun at h
  rcases hg : bestRunGo ws 0 none none with _ | r
  · rw [hg] at h
    exact Option.noConfusion h
  · rw [hg] at h
    dsimp at h
    split at h
    · exact Option.noConfusion h
    · next hlt =>
      injection h with h
      have hspec := bestRunGo_spec ws ws 0 none none (by simp) (by omega)
        (by intro c hc; exact Option.noConfusion hc)
        (by intro c hc; exact Option.noConfusion hc) r hg
      rw [h] at hspec hlt
      simp at hlt
      exact ⟨by omega, hspec.1, hspec.2⟩

/-!
## inet_ntop6 loop lemmas
-/

theorem ntopLoopAux_fuel (ws : List Nat) (best : Option (Nat × Nat)) (f1 : Nat) :
    ∀ (f2 i : Nat), 8 - i ≤ f1 → 8 - i ≤ f2 →
    ntopLoopAux ws best f1 i = ntopLoopAux ws best f2 i := by
  induction f1 with
  | zero =>
    intro f2 i h1 h2
    have hi : 8 ≤ i := by omega
    cases f2 with
    | zero => rfl
    | succ g =>
      simp only [ntopLoopAux]
      rw [if_pos hi]
  | succ f ih =>
    intro f2 i h1 h2
    by_cases hi : 8 ≤ i
    · cases f2 with
      | zero =>
        simp only [ntopLoopAux]
        rw [if_pos hi]
      | succ g =>
        simp only [ntopLoopAux]
        rw [if_pos hi, if_pos hi]
    · cases f2 with
      | zero => omega
      | succ g =>
        simp only [ntopLoopAux]
        rw [if_neg hi, if_neg hi, ih g (i + 1) (by omega) (by omega)]

theorem groupsRender_fuel (ws : List Nat) (f1 : Nat) :
    ∀ (f2 i stop : Nat), stop - i ≤ f1 → stop - i ≤ f2 →
    groupsRender ws f1 i stop = groupsRender ws f2 i stop := by
  induction f1 with
  | zero =>
    intro f2 i stop h1 h2
    have hi : stop ≤ i := by omega
    cases f2 with
    | zero => rfl
    | succ g =>
      simp only [groupsRender]
      rw [if_pos hi]
  | succ f ih =>
    intro f2 i stop h1 h2
    by_cases hi : stop ≤ i
    · cases f2 with
      | zero =>
        simp only [groupsRender]
        rw [if_pos hi]
      | succ g =>
        simp only [groupsRender]
        rw [if_pos hi, if_pos hi]
    · cases f2 with
      | zero => omega
      | succ g =>
        simp only [groupsRender]
        rw [if_neg hi, if_neg hi, ih g (i + 1) stop (by omega) (by omega)]

theorem ntop_step_run_base (ws : List Nat) (b l i : Nat) (hi : i < 8)
    (hrun : inRun (some (b, l)) i = true) (hbase : i = b) :
    ntopLoopAux ws (some (b, l)) 8 i = ':' :: ntopLoopAux ws (some (b, l)) 8 (i + 1) := by
  show ntopLoopAux ws (some (b, l)) (7 + 1) i = _
  rw [ntopLoopAux, if_neg (by omega), if_pos hrun, if_pos (by simpa using hbase),
    ntopLoopAux_fuel ws (some (b, l)) 7 8 (i + 1) (by omega) (by omega)]
  rfl

theorem ntop_step_run_mid (ws : List Nat) (b l i : Nat) (hi : i < 8)
    (hrun : inRun (some (b, l)) i = true) (hbase : i ≠ b) :
    ntopLoopAux ws (some (b, l)) 8 i = ntopLoopAux ws (some (b, l)) 8 (i + 1) := by
  show ntopLoopAux ws (some (b, l)) (7 + 1) i = _
  rw [ntopLoopAux, if_neg (by omega), if_pos hrun, if_neg (by simpa using hbase),
    ntopLoopAux_fuel ws (some (b, l)) 7 8 (i + 1) (by omega) (by omega)]
  rfl

theorem ntop_step_out (ws : List Nat) (best : Option (Nat × Nat)) (i : Nat)
    (hi : i < 8) (hrun : inRun best i = false) (hv4 : isV4Branch ws best i = false) :
    ntopLoopAux ws best 8 i =
      (if i ≠ 0 then [':'] else []) ++
        (printHexWord (ws.getD i 0) ++ ntopLoopAux ws best 8 (i + 1)) := by
  show ntopLoopAux ws best (7 + 1) i = _
  rw [ntopLoopAux.eq_def]
  dsimp only
  rw [if_neg (by omega), hrun, hv4,
    ntopLoopAux_fuel ws best 7 8 (i + 1) (by omega) (by omega)]
  simp

theorem ntop_step_v4 (ws : List Nat) (best : Option (Nat × Nat)) (i : Nat)
    (hi : i < 8) (hrun : inRun best i = false) (hv4 : isV4Branch ws best i = true) :
    ntopLoopAux ws best 8 i = (if i ≠ 0 then [':'] else []) ++ v4Tail ws := by
  show ntopLoopAux ws best (7 + 1) i = _
  rw [ntopLoopAux.eq_def]
  dsimp only
  rw [if_neg (by omega), hrun, hv4]
  simp

theorem groupsRender_stop (ws : List Nat) (i stop : Nat) (h : stop ≤ i) :
    groupsRender ws 8 i stop = [] := by
  show groupsRender ws (7 + 1) i stop = []
  rw [groupsRender, if_pos h]

theorem groupsRender_step (ws : List Nat) (i stop : Nat) (h : i < stop)
    (hstop : stop ≤ 8) :
    groupsRender ws 8 i stop =
      (if i ≠ 0 then [':'] else []) ++ printHexWord (ws.getD i 0) ++
        groupsRender ws 8 (i + 1) stop := by
  show groupsRender ws (7 + 1) i stop = _
  rw [groupsRender, if_neg (by omega),
    groupsRender_fuel ws 7 8 (i + 1) stop (by omega) (by omega)]

theorem ntop_phase_out (ws : List Nat) (best : Option (Nat × Nat)) :
    ∀ (k i stop : Nat), stop ≤ 8 → i + k = stop →
    (∀ j, i ≤ j → j < stop → inRun best j = false ∧ isV4Branch ws best j = false) →
    ntopLoopAux ws best 8 i = groupsRender ws 8 i stop ++ ntopLoopAux ws best 8 stop := by
  intro k
  induction k with
  | zero =>
    intro i stop h8 hk _
    have : i = stop := by omega
    subst this
    rw [groupsRender_stop ws i i le_rfl]
    rfl
  | succ m ih =>
    intro i stop h8 hk hcond
    have hi : i < stop := by omega
    obtain ⟨h1, h2⟩ := hcond i le_rfl hi
    rw [ntop_step_out ws best i (by omega) h1 h2,
      ih (i + 1) stop h8 (by omega) (fun j hj1 hj2 => hcond j (by omega) hj2),
      groupsRender_step ws i stop hi h8]
    simp

theorem ntop_phase_run (ws : List Nat) (b l : Nat) (hl : 1 ≤ l) (hle : b + l ≤ 8) :
    ntopLoopAux ws (some (b, l)) 8 b = ':' :: ntopLoopAux ws (some (b, l)) 8 (b + l) := by
  have haux : ∀ (k i : Nat), b < i → i + k = b + l →
      ntopLoopAux ws (some (b, l)) 8 i = ntopLoopAux ws (some (b, l)) 8 (b + l) := by
    intro k
    induction k with
    | zero =>
      intro i _ hk
      have : i = b + l := by omega
      subst this
      rfl
    | succ m ih =>
      intro i hbi hk
      rw [ntop_step_run_mid ws b l i (by omega) (by simp [inRun]; omega) (by omega),
        ih (i + 1) (by omega) (by omega)]
  rw [ntop_step_run_base ws b l b (by omega) (by simp [inRun]; omega) rfl]
  by_cases hl1 : l = 1
  · subst hl1
    rfl
  · rw [haux (b + l - (b + 1)) (b + 1) (by omega) (by omega)]

theorem sliceWords_cons (ws : List Nat) (i stop : Nat) (h1 : i < stop)
    (h2 : i < ws.length) :
    sliceWords ws i stop = ws.getD i 0 :: sliceWords ws (i + 1) stop := by
  unfold sliceWords
  rw [List.drop_eq_getElem_cons h2]
  have : stop - i = (stop - (i + 1)) + 1 := by omega
  rw [this, List.take_succ_cons, List.getD_eq_getElem ws 0 h2]

theorem sliceWords_ne_nil (ws : List Nat) (i stop : Nat) (h1 : i < stop)
    (h2 : i < ws.length) : sliceWords ws i stop ≠ [] := by
  rw [sliceWords_cons ws i stop h1 h2]
  simp

theorem groupsRender_hexJoin_pos (ws : List Nat) :
    ∀ (k i stop : Nat), 1 ≤ i → i + k = stop → i < stop → stop ≤ ws.length →
    stop ≤ 8 →
    groupsRender ws 8 i stop = ':' :: hexJoin (sliceWords ws i stop) := by
  intro k
  induction k with
  | zero => omega
  | succ m ih =>
    intro i stop h1 hk hi hlen hs8
    by_cases hm : m = 0
    · subst hm
      have hstop : stop = i + 1 := by omega
      subst hstop
      rw [groupsRender_step ws i (i + 1) (by omega) (by omega),
        groupsRender_stop ws (i + 1) (i + 1) le_rfl,
        sliceWords_cons ws i (i + 1) (by omega) (by omega)]
      have : sliceWords ws (i + 1) (i + 1) = [] := by
        unfold sliceWords
        simp
      rw [this]
      simp [hexJoin, if_pos (by omega : i ≠ 0)]
    · rw [groupsRender_step ws i stop hi (by omega),
        ih (i + 1) stop (by omega) (by omega) (by omega) hlen hs8,
        sliceWords_cons ws i stop hi (by omega),
        hexJoin_cons _ _ (sliceWords_ne_nil ws (i + 1) stop (by omega) (by omega))]
      simp [if_pos (by omega : i ≠ 0)]

theorem groupsRender_hexJoin_zero (ws : List Nat) (stop : Nat) (h1 : 0 < stop)
    (hlen : stop ≤ ws.length) (hs8 : stop ≤ 8) :
    groupsRender ws 8 0 stop = hexJoin (sliceWords ws 0 stop) := by
  rw [groupsRender_step ws 0 stop h1 hs8,
    sliceWords_cons ws 0 stop h1 (by omega)]
  by_cases hstop : stop = 1
  · subst hstop
    rw [groupsRender_stop ws 1 1 le_rfl]
    have : sliceWords ws 1 1 = [] := by
      unfold sliceWords
      simp
    rw [this]
    simp [hexJoin]
  · rw [groupsRender_hexJoin_pos ws (stop - 1) 1 stop (by omega) (by omega)
      (by omega) hlen hs8,
      hexJoin_cons _ _ (sliceWords_ne_nil ws 1 stop (by omega) (by omega))]
    simp

theorem digitDot_class6 (c : Char) (h : (isDigitChar c || c = '.') = true) :
    isClass6Char c = true := by
  unfold isClass6Char
  rcases Bool.or_eq_true_iff.mp h with h1 | h1 <;> simp [h1]

theorem ntop4_digitDot (a b c d : Nat) :
    ∀ x ∈ ntop4 a b c d, (isDigitChar x || x = '.') = true := by
  intro x hx
  have hdig : ∀ n : Nat, x ∈ printDecNat n → (isDigitChar x || x = '.') = true := by
    intro n hn
    obtain ⟨d', hd', hcd⟩ := printDecNat_chars n x hn
    subst hcd
    simp [(decCharFacts d' hd').1]
  have hcases : x ∈ printDecNat a ∨ x ∈ printDecNat b ∨ x ∈ printDecNat c ∨
      x ∈ printDecNat d ∨ x = '.' := by
    unfold ntop4 at hx
    simp only [List.mem_append, List.mem_cons] at hx
    tauto
  rcases hcases with h | h | h | h | h
  · exact hdig a h
  · exact hdig b h
  · exact hdig c h
  · exact hdig d h
  · subst h
    rfl

theorem v4Tail_digitDot (ws : List Nat) :
    ∀ x ∈ v4Tail ws, (isDigitChar x || x = '.') = true := by
  intro x hx
  exact ntop4_digitDot _ _ _ _ x hx

theorem hexJoin_class6 (ws : List Nat) : ∀ c ∈ hexJoin ws, isClass6Char c = true := by
  induction ws with
  | nil =>
    intro c hc
    simp [hexJoin] at hc
  | cons w tl ih =>
    intro c hc
    cases tl with
    | nil =>
      simp only [hexJoin] at hc
      obtain ⟨d, hd, hcd⟩ := printHexWord_chars w c hc
      subst hcd
      exact (hexCharFacts d hd).2.1
    | cons w' tl' =>
      rw [hexJoin_cons w (w' :: tl') (by simp)] at hc
      simp only [List.mem_append, List.mem_cons] at hc
      rcases hc with hc | hc | hc
      · obtain ⟨d, hd, hcd⟩ := printHexWord_chars w c hc
        subst hcd
        exact (hexCharFacts d hd).2.1
      · subst hc
        rfl
      · exact ih c hc

theorem ntopLoopAux_class6 (ws : List Nat) (best : Option (Nat × Nat)) :
    ∀ (fuel i : Nat), ∀ c ∈ ntopLoopAux ws best fuel i, isClass6Char c = true := by
  intro fuel
  induction fuel with
  | zero =>
    intro i c hc
    simp [ntopLoopAux] at hc
  | succ f ih =>
    intro i c hc
    rw [ntopLoopAux.eq_def] at hc
    dsimp only at hc
    split at hc
    · simp at hc
    · split at hc
      · simp only [List.mem_append] at hc
        rcases hc with hc | hc
        · split at hc <;> simp at hc
          subst hc
          rfl
        · exact ih (i + 1) c hc
      · simp only [List.mem_append] at hc
        rcases hc with hc | hc
        · split at hc <;> simp at hc
          subst hc
          rfl
        · split at hc
          · exact digitDot_class6 c (v4Tail_digitDot ws c hc)
          · simp only [List.mem_append] at hc
            rcases hc with hc | hc
            · obtain ⟨d, hd, hcd⟩ := printHexWord_chars _ c hc
              subst hcd
              exact (hexCharFacts d hd).2.1
            · exact ih (i + 1) c hc

theorem ntop6_class6 (ws : List Nat) : ∀ c ∈ ntop6 ws, isClass6Char c = true := by
  intro c hc
  unfold ntop6 at hc
  simp only [List.mem_append] at hc
  rcases hc with hc | hc
  · exact ntopLoopAux_class6 ws (bestRun ws) 8 0 c hc
  · rcases hb : bestRun ws with _ | bl
    · rw [hb] at hc
      simp at hc
    · rw [hb] at hc
      dsimp at hc
      split at hc <;> simp at hc
      subst hc
      rfl

/-!
## Authority text splitting lemmas
-/

theorem takeWhile_append_all (p : Char → Bool) (l1 l2 : List Char)
    (h : ∀ x ∈ l1, p x = true) :
    (l1 ++ l2).takeWhile p = l1 ++ l2.takeWhile p := by
  induction l1 with
  | nil => simp
  | cons c tl ih =>
    simp only [List.cons_append, List.takeWhile_cons, h c (by simp)]
    rw [ih (fun x hx => h x (by simp [hx]))]
    simp

theorem dropWhile_append_all (p : Char → Bool) (l1 l2 : List Char)
    (h : ∀ x ∈ l1, p x = true) :
    (l1 ++ l2).dropWhile p = l2.dropWhile p := by
  induction l1 with
  | nil => simp
  | cons c tl ih =>
    simp only [List.cons_append, List.dropWhile_cons, h c (by simp)]
    simpa using ih (fun x hx => h x (by simp [hx]))

theorem parsePort_portSuffix (port : Nat) (h : port < 65536) :
    parsePort (portSuffix port) = some port := by
  by_cases hz : port = 0
  · subst hz
    rfl
  · unfold portSuffix
    rw [if_pos hz]
    unfold parsePort
    dsimp only
    rw [if_pos rfl,
      if_pos ⟨printDecNat_ne_nil port, printDecNat_length_le5 port h, by
        rw [List.all_eq_true]
        intro c hc
        obtain ⟨d, hd, hcd⟩ := printDecNat_chars port c hc
        subst hcd
        exact (decCharFacts d hd).1⟩,
      printDecNat_val port, if_pos h]

theorem class6_ne_rbracket (c : Char) (h : isClass6Char c = true) : c ≠ ']' := by
  intro hc
  subst hc
  simp [isClass6Char, isDigitChar] at h

theorem parseAuthority_bracket (body tail : List Char) (hne : body ≠ [])
    (hcls : ∀ c ∈ body, isClass6Char c = true) :
    parseAuthority ('[' :: body ++ ']' :: tail) =
      (match parsePort tail, pton6 body with
       | some port, some ws => some (ws, port)
       | _, _ => none) := by
  have hnb : ∀ x ∈ body, (fun x => decide (x ≠ ']')) x = true := by
    intro x hx
    simp [class6_ne_rbracket x (hcls x hx)]
  show parseAuthority ('[' :: (body ++ ']' :: tail)) = _
  unfold parseAuthority
  dsimp only
  rw [if_pos rfl]
  have htake : (body ++ ']' :: tail).takeWhile (fun x => x ≠ ']') = body := by
    rw [takeWhile_append_all _ _ _ hnb]
    simp [List.takeWhile_cons]
  have hdrop : (body ++ ']' :: tail).dropWhile (fun x => x ≠ ']') = ']' :: tail := by
    rw [dropWhile_append_all _ _ _ hnb]
    simp [List.dropWhile_cons]
  simp only [htake, hdrop]
  rw [if_pos ⟨hne, by rw [List.all_eq_true]; exact hcls, by simp⟩]
  simp

theorem digitDot_ne_lbracket (c : Char) (h : (isDigitChar c || c = '.') = true) :
    c ≠ '[' := by
  intro hc
  subst hc
  simp [isDigitChar] at h

theorem digitDot_ne_colon (c : Char) (h : (isDigitChar c || c = '.') = true) :
    c ≠ ':' := by
  intro hc
  subst hc
  simp [isDigitChar] at h

theorem parseAuthority_plain (host : List Char) (port : Nat) (hne : host ≠ [])
    (hch : ∀ c ∈ host, (isDigitChar c || c = '.') = true) (hp : port < 65536) :
    parseAuthority (host ++ portSuffix port) =
      (match parsePort (portSuffix port),
          pton6 ([':', ':', 'f', 'f', 'f', 'f', ':'] ++ host) with
       | some p, some ws => some (ws, p)
       | _, _ => none) := by
  have hnc : ∀ x ∈ host, (fun x => decide (x ≠ ':')) x = true := by
    intro x hx
    simp [digitDot_ne_colon x (hch x hx)]
  rcases hhost : host with _ | ⟨c, tl⟩
  · exact absurd hhost hne
  · rw [← hhost]
    have hexp : host ++ portSuffix port = c :: (tl ++ portSuffix port) := by
      rw [hhost]
      simp
    rw [hexp]
    unfold parseAuthority
    dsimp only
    rw [if_neg (by
      have := digitDot_ne_lbracket c (hch c (by rw [hhost]; simp))
      simpa using this)]
    rw [← hexp]
    have htake : (host ++ portSuffix port).takeWhile (fun x => x ≠ ':') = host := by
      rw [takeWhile_append_all _ _ _ hnc]
      unfold portSuffix
      by_cases hz : port = 0
      · simp [hz]
      · rw [if_pos hz]
        simp [List.takeWhile_cons]
    have hdrop : (host ++ portSuffix port).dropWhile (fun x => x ≠ ':') =
        portSuffix port := by
      rw [dropWhile_append_all _ _ _ hnc]
      unfold portSuffix
      by_cases hz : port = 0
      · simp [hz]
      · rw [if_pos hz]
        simp [List.dropWhile_cons]
    simp only [htake, hdrop]
    rw [if_pos ⟨hne, by rw [List.all_eq_true]; exact hch⟩]

/-!
## to_ipv4_hostname regex lemmas
-/

theorem toIpv4Hostname_none_head (s : List Char) (h : s.headD ' ' ≠ ':') :
    toIpv4Hostname s = none := by
  unfold toIpv4Hostname
  rcases s with _ | ⟨c, rest⟩
  · rfl
  · rw [if_neg]
    intro ⟨h1, _, _⟩
    simp [List.take_cons] at h1
    simp at h
    exact h h1.1

theorem toIpv4Hostname_none_colonLate (s : List Char) (h : ':' ∈ s.drop 7) :
    toIpv4Hostname s = none := by
  unfold toIpv4Hostname
  rw [if_neg]
  intro ⟨_, _, h3⟩
  rw [List.all_eq_true] at h3
  have := h3 ':' h
  simp [isDigitChar] at this

theorem toIpv4Hostname_none_short (s : List Char) (h : s.length < 7) :
    toIpv4Hostname s = none := by
  unfold toIpv4Hostname
  rw [if_neg]
  intro ⟨h1, _, _⟩
  have := congrArg List.length h1
  simp at this
  omega

theorem toIpv4Hostname_mapped (tail : List Char) (hne : tail ≠ [])
    (hdd : ∀ c ∈ tail, (isDigitChar c || c = '.') = true) :
    toIpv4Hostname ([':', ':', 'f', 'f', 'f', 'f', ':'] ++ tail) = some tail := by
  unfold toIpv4Hostname
  have htake : ([':', ':', 'f', 'f', 'f', 'f', ':'] ++ tail).take 7 =
      [':', ':', 'f', 'f', 'f', 'f', ':'] := by
    rw [show (7 : Nat) = ([':', ':', 'f', 'f', 'f', 'f', ':'] : List Char).length
      from rfl, List.take_left]
  have hdrop : ([':', ':', 'f', 'f', 'f', 'f', ':'] ++ tail).drop 7 = tail := by
    rw [show (7 : Nat) = ([':', ':', 'f', 'f', 'f', 'f', ':'] : List Char).length
      from rfl, List.drop_left]
  rw [htake, hdrop, if_pos ⟨rfl, hne, by rw [List.all_eq_true]; exact hdd⟩]

theorem ntopLoopAux_stop (ws : List Nat) (best : Option (Nat × Nat)) (i : Nat)
    (h : 8 ≤ i) : ntopLoopAux ws best 8 i = [] := by
  show ntopLoopAux ws best (7 + 1) i = []
  rw [ntopLoopAux.eq_def]
  dsimp only
  rw [if_pos h]

theorem sliceWords_zero (ws : List Nat) (b : Nat) : sliceWords ws 0 b = ws.take b := by
  unfold sliceWords
  simp

theorem sliceWords_toEnd (ws : List Nat) (i : Nat) (hlen : ws.length = 8) :
    sliceWords ws i 8 = ws.drop i := by
  unfold sliceWords
  apply List.take_of_length_le
  simp [hlen]

theorem list_reconstruct (ws : List Nat) (b l : Nat) (hlen : ws.length = 8)
    (hble : b + l ≤ 8) (hzero : ∀ j, b ≤ j → j < b + l → ws.getD j 0 = 0) :
    ws.take b ++ List.replicate l 0 ++ ws.drop (b + l) = ws := by
  have hmid : (ws.drop b).take l = List.replicate l 0 := by
    rw [List.eq_replicate]
    constructor
    · simp [hlen]
      omega
    · intro x hx
      rw [List.mem_iff_getElem] at hx
      obtain ⟨i, hi, hx⟩ := hx
      have hi2 : i < l := by
        simp [hlen] at hi
        omega
      have hi3 : b + i < ws.length := by omega
      rw [List.getElem_take, List.getElem_drop] at hx
      subst hx
      have h' := hzero (b + i) (Nat.le_add_right b i) (by omega)
      rwa [List.getD_eq_getElem ws 0 hi3] at h'
  have hdd : (ws.drop b).drop l = ws.drop (b + l) := by
    rw [List.drop_drop]
    try (congr 1; omega)
  calc ws.take b ++ List.replicate l 0 ++ ws.drop (b + l)
      = ws.take b ++ ((ws.drop b).take l ++ (ws.drop b).drop l) := by
        rw [hmid, hdd, List.append_assoc]
    _ = ws.take b ++ ws.drop b := by rw [List.take_append_drop]
    _ = ws := List.take_append_drop b ws

theorem hexJoin_head (ws : List Nat) (h : ws ≠ []) :
    ∃ d, d < 16 ∧ (hexJoin ws).headD ' ' = digitChar36 d := by
  rcases ws with _ | ⟨w, tl⟩
  · exact absurd rfl h
  · obtain ⟨d, hd, hh⟩ := printHexWord_headD w
    refine ⟨d, hd, ?_⟩
    rcases tl with _ | ⟨w', tl'⟩
    · simpa [hexJoin] using hh
    · rw [hexJoin_cons w (w' :: tl') (by simp)]
      rcases hpw : printHexWord w with _ | ⟨c, cs⟩
      · exact absurd hpw (printHexWord_ne_nil w)
      · rw [hpw] at hh
        simpa using hh

theorem toIpv4Hostname_none_third (c : Char) (rest : List Char) (hc : c ≠ 'f') :
    toIpv4Hostname (':' :: ':' :: c :: rest) = none := by
  unfold toIpv4Hostname
  rw [if_neg]
  rintro ⟨h1, -, -⟩
  simp [List.take_succ_cons] at h1
  exact hc h1.1

theorem toIpv4Hostname_none_gapHex3 (a5 a6 a7 : Nat) (h5 : a5 < 65536)
    (hne : a5 ≠ 0xffff) :
    toIpv4Hostname (':' :: ':' :: hexJoin [a5, a6, a7]) = none := by
  rw [hexJoin_cons a5 [a6, a7] (by simp)]
  by_cases h1 : a5 < 16
  · rw [printHexWord_lt16 a5 h1]
    unfold toIpv4Hostname
    rw [if_neg]
    rintro ⟨heq, -, -⟩
    simp [List.take_succ_cons] at heq
  · by_cases h2 : a5 < 256
    · rw [printHexWord_lt256 a5 (by omega) h2]
      unfold toIpv4Hostname
      rw [if_neg]
      rintro ⟨heq, -, -⟩
      simp [List.take_succ_cons] at heq
    · by_cases h3 : a5 < 4096
      · rw [printHexWord_lt4096 a5 (by omega) h3]
        unfold toIpv4Hostname
        rw [if_neg]
        rintro ⟨heq, -, -⟩
        simp [List.take_succ_cons] at heq
      · rw [printHexWord_lt65536 a5 (by omega) h5]
        unfold toIpv4Hostname
        rw [if_neg]
        rintro ⟨heq, -, -⟩
        simp [List.take_succ_cons] at heq
        have hpw : printHexWord a5 = ['f', 'f', 'f', 'f'] := by
          rw [printHexWord_lt65536 a5 (by omega) h5, heq.1, heq.2.1, heq.2.2.1,
            heq.2.2.2]
        have hv := printHexWord_val a5
        rw [hpw] at hv
        have : hexListVal ['f', 'f', 'f', 'f'] = 0xffff := by decide
        omega

/-!
## Round-trip assembly helpers
-/

theorem getD_lt_of_forall (ws : List Nat) (m i : Nat) (hw : ∀ w ∈ ws, w < m)
    (hi : i < ws.length) : ws.getD i 0 < m := by
  rw [List.getD_eq_getElem ws 0 hi]
  exact hw _ (List.getElem_mem hi)

theorem drop_step (ws : List Nat) (i : Nat) (hi : i < ws.length) :
    ws.drop i = ws.getD i 0 :: ws.drop (i + 1) := by
  rw [List.getD_eq_getElem ws 0 hi]
  exact List.drop_eq_getElem_cons hi

theorem drop_all8 (ws : List Nat) (hlen : ws.length = 8) : ws.drop 8 = [] := by
  rw [← hlen, List.drop_length]

theorem headD_append_left (xs ys : List Char) (hne : xs ≠ []) :
    (xs ++ ys).headD ' ' = xs.headD ' ' := by
  rcases xs with _ | ⟨c, tl⟩
  · exact absurd rfl hne
  · rfl

theorem inRun_false_of (b l j : Nat) (h : j < b ∨ b + l ≤ j) :
    inRun (some (b, l)) j = false := by
  simp [inRun]
  omega

theorem isV4Branch_false_of (ws : List Nat) (b l j : Nat)
    (h : ¬(j = 6 ∧ b = 0 ∧ (l = 6 ∨ (l = 7 ∧ ws.getD 7 0 ≠ 1) ∨
      (l = 5 ∧ ws.getD 5 0 = 0xffff)))) :
    isV4Branch ws (some (b, l)) j = false := by
  simp only [isV4Branch]
  simp at h ⊢
  tauto

theorem v4Tail_ne_nil (ws : List Nat) : v4Tail ws ≠ [] := by
  rw [v4Tail_eq]
  rcases hh : printDecNat (ws.getD 6 0 / 256) with _ | ⟨c, tl⟩
  · exact absurd hh (printDecNat_ne_nil _)
  · simp

theorem toHostName_digitDot (host : List Char)
    (h : ∀ c ∈ host, (isDigitChar c || c = '.') = true) :
    toHostName host = host := by
  have hmem : ':' ∉ host := by
    intro hm
    have := h ':' hm
    simp [isDigitChar] at this
  simp [toHostName, hmem]

theorem toHostName_bracket (rest : List Char) :
    toHostName ('[' :: rest) = '[' :: rest := by
  simp [toHostName]

theorem hexJoin_colon_drop5 (w1 w2 w3 : Nat) (tl : List Nat) (htl : tl ≠ []) :
    ':' ∈ (hexJoin (w1 :: w2 :: w3 :: tl)).drop 5 := by
  have hsh : hexJoin (w1 :: w2 :: w3 :: tl) =
      (printHexWord w1 ++ ':' :: printHexWord w2 ++ ':' :: printHexWord w3) ++
        ':' :: hexJoin tl := by
    rw [hexJoin_cons w1 (w2 :: w3 :: tl) (by simp),
      hexJoin_cons w2 (w3 :: tl) (by simp),
      hexJoin_cons w3 tl htl]
    simp
  have l1 : 0 < (printHexWord w1).length :=
    List.length_pos.mpr (printHexWord_ne_nil w1)
  have l2 : 0 < (printHexWord w2).length :=
    List.length_pos.mpr (printHexWord_ne_nil w2)
  have l3 : 0 < (printHexWord w3).length :=
    List.length_pos.mpr (printHexWord_ne_nil w3)
  rw [hsh, List.drop_append_of_le_length (by
    simp only [List.length_append, List.length_cons]
    omega)]
  exact List.mem_append_right _ (List.mem_cons_self _ _)

theorem ntop6_run_shape (ws : List Nat) (b l : Nat) (hbr : bestRun ws = some (b, l))
    (hl : 1 ≤ l) (hle : b + l ≤ 8)
    (hmid : ∀ j, b + l ≤ j → j < 8 → isV4Branch ws (some (b, l)) j = false) :
    ntop6 ws = groupsRender ws 8 0 b ++
      ':' :: (groupsRender ws 8 (b + l) 8 ++ (if b + l = 8 then [':'] else [])) := by
  have hpre : ntopLoopAux ws (some (b, l)) 8 0 =
      groupsRender ws 8 0 b ++ ntopLoopAux ws (some (b, l)) 8 b :=
    ntop_phase_out ws (some (b, l)) b 0 b (by omega) (by omega)
      (fun j hj1 hj2 => ⟨inRun_false_of b l j (Or.inl hj2),
        isV4Branch_false_of ws b l j (by rintro ⟨h6, h0, -⟩; omega)⟩)
  have hrun := ntop_phase_run ws b l hl hle
  have hpost : ntopLoopAux ws (some (b, l)) 8 (b + l) =
      groupsRender ws 8 (b + l) 8 ++ ntopLoopAux ws (some (b, l)) 8 8 :=
    ntop_phase_out ws (some (b, l)) (8 - (b + l)) (b + l) 8 le_rfl (by omega)
      (fun j hj1 hj2 => ⟨inRun_false_of b l j (Or.inr hj1), hmid j hj1 hj2⟩)
  simp only [ntop6, hbr]
  rw [hpre, hrun, hpost, ntopLoopAux_stop ws (some (b, l)) 8 le_rfl]
  simp

theorem roundtrip_case_none (ws : List Nat) (port : Nat) (hlen : ws.length = 8)
    (hw : ∀ w ∈ ws, w < 65536) (hp : port < 65536) (hbr : bestRun ws = none) :
    parseAuthority (formatAuthority ws port) = some (ws, port) := by
  have hwne : ws ≠ [] := by
    intro h
    rw [h] at hlen
    simp at hlen
  have hloop : ntopLoopAux ws none 8 0 = hexJoin ws := by
    have h1 := ntop_phase_out ws none 8 0 8 le_rfl (by omega)
      (fun j _ _ => ⟨by simp [inRun], by simp [isV4Branch]⟩)
    rw [ntopLoopAux_stop ws none 8 le_rfl, List.append_nil] at h1
    rw [h1, groupsRender_hexJoin_zero ws 8 (by omega) (by omega) le_rfl,
      sliceWords_zero, List.take_of_length_le (by omega)]
  have hns : ntop6 ws = hexJoin ws := by
    simp only [ntop6, hbr]
    rw [hloop]
    simp
  have hhead : (hexJoin ws).headD ' ' ≠ ':' := by
    obtain ⟨d, hd, hh⟩ := hexJoin_head ws hwne
    rw [hh]
    exact (hexCharFacts d hd).2.2.1
  have hth : toHostname ws = '[' :: hexJoin ws ++ [']'] := by
    unfold toHostname
    rw [hns, toIpv4Hostname_none_head _ hhead]
    unfold toIpv6Hostname
    rw [hns]
  have hfmt : formatAuthority ws port =
      '[' :: hexJoin ws ++ ']' :: portSuffix port := by
    unfold formatAuthority toText
    rw [hth,
      show ('[' :: hexJoin ws ++ [']'] : List Char) =
        '[' :: (hexJoin ws ++ [']']) from by simp,
      toHostName_bracket (hexJoin ws ++ [']'])]
    simp
  have hpt : pton6 (hexJoin ws) = some ws := by
    rw [pton6_entryPlain _ (hexJoin_ne_nil ws hwne) hhead,
      pton6Go_segEnd ws [] none [] hwne hw (by simp [hlen])]
    simp [pton6Fin, hlen]
  rw [hfmt, parseAuthority_bracket _ _ (hexJoin_ne_nil ws hwne) (hexJoin_class6 ws),
    parsePort_portSuffix port hp, hpt]

theorem roundtrip_case_mapped (ws : List Nat) (port : Nat) (hlen : ws.length = 8)
    (hw : ∀ w ∈ ws, w < 65536) (hp : port < 65536)
    (hbr : bestRun ws = some (0, 5)) (hff : ws.getD 5 0 = 0xffff) :
    parseAuthority (formatAuthority ws port) = some (ws, port) := by
  obtain ⟨hl2, hle, hzero⟩ := bestRun_spec ws 0 5 hbr
  have h6 : ws.getD 6 0 < 65536 := getD_lt_of_forall ws 65536 6 hw (by omega)
  have h7 : ws.getD 7 0 < 65536 := getD_lt_of_forall ws 65536 7 hw (by omega)
  have hpw : printHexWord 0xffff = ['f', 'f', 'f', 'f'] := by decide
  have hloop5 : ntopLoopAux ws (some (0, 5)) 8 5 =
      ':' :: ('f' :: 'f' :: 'f' :: 'f' :: (':' :: v4Tail ws)) := by
    rw [ntop_step_out ws (some (0, 5)) 5 (by omega) (inRun_false_of 0 5 5 (by omega))
        (isV4Branch_false_of ws 0 5 5 (by rintro ⟨h, -⟩; omega)),
      ntop_step_v4 ws (some (0, 5)) 6 (by omega) (inRun_false_of 0 5 6 (by omega))
        (by simp only [isV4Branch]; rw [hff]; simp),
      hff, hpw]
    simp
  have hns : ntop6 ws = [':', ':', 'f', 'f', 'f', 'f', ':'] ++ v4Tail ws := by
    simp only [ntop6, hbr]
    have hpr := ntop_phase_run ws 0 5 (by omega) (by omega)
    norm_num at hpr
    rw [hpr, hloop5]
    simp
  have hv4dd := v4Tail_digitDot ws
  have hth : toHostname ws = v4Tail ws := by
    unfold toHostname
    rw [hns, toIpv4Hostname_mapped (v4Tail ws) (v4Tail_ne_nil ws) hv4dd]
  have hfmt : formatAuthority ws port = v4Tail ws ++ portSuffix port := by
    unfold formatAuthority toText
    rw [hth, toHostName_digitDot (v4Tail ws) hv4dd]
  have hrec := list_reconstruct ws 0 5 hlen (by omega) hzero
  have hdrop5 : ws.drop 5 = [ws.getD 5 0, ws.getD 6 0, ws.getD 7 0] := by
    rw [drop_step ws 5 (by omega), drop_step ws 6 (by omega),
      drop_step ws 7 (by omega), drop_all8 ws hlen]
  rw [hdrop5, hff] at hrec
  simp only [List.take_zero, List.nil_append] at hrec
  have hsplit : ([':', ':', 'f', 'f', 'f', 'f', ':'] : List Char) ++ v4Tail ws =
      ':' :: ':' :: (printHexWord 0xffff ++ (':' :: v4Tail ws)) := by
    rw [hpw]
    simp
  have hpt : pton6 ([':', ':', 'f', 'f', 'f', 'f', ':'] ++ v4Tail ws) = some ws := by
    rw [hsplit, pton6_entryGap, pton6Go_gap,
      pton6Go_hexTok 0xffff (':' :: v4Tail ws) [] (some ([] : List Nat).length) []
        (by omega),
      pton6Go_colonFlush _ _ _ _ _ _ (v4Tail_ne_nil ws) (by simp),
      pton6Go_v4Tail ws _ _ h6 h7 (by simp)]
    simp [pton6End, pton6Fin]
    simp [List.replicate] at hrec
    convert hrec using 2 <;> simp [List.getD]
  rw [hfmt, parseAuthority_plain (v4Tail ws) port (v4Tail_ne_nil ws) hv4dd hp,
    parsePort_portSuffix port hp, hpt]

theorem roundtrip_case_v46 (ws : List Nat) (port : Nat) (hlen : ws.length = 8)
    (hw : ∀ w ∈ ws, w < 65536) (hp : port < 65536)
    (hbr : bestRun ws = some (0, 6)) :
    parseAuthority (formatAuthority ws port) = some (ws, port) := by
  obtain ⟨hl2, hle, hzero⟩ := bestRun_spec ws 0 6 hbr
  have h6 : ws.getD 6 0 < 65536 := getD_lt_of_forall ws 65536 6 hw (by omega)
  have h7 : ws.getD 7 0 < 65536 := getD_lt_of_forall ws 65536 7 hw (by omega)
  have hns : ntop6 ws = ':' :: ':' :: v4Tail ws := by
    simp only [ntop6, hbr]
    have hpr := ntop_phase_run ws 0 6 (by omega) (by omega)
    norm_num at hpr
    rw [hpr,
      ntop_step_v4 ws (some (0, 6)) 6 (by omega) (inRun_false_of 0 6 6 (by omega))
        (by simp [isV4Branch])]
    simp
  obtain ⟨c, rest, hv4sh⟩ : ∃ c rest, v4Tail ws = c :: rest := by
    rcases hx : v4Tail ws with _ | ⟨c, rest⟩
    · exact absurd hx (v4Tail_ne_nil ws)
    · exact ⟨c, rest, rfl⟩
  have hcf : c ≠ 'f' := by
    obtain ⟨d, hd, hh⟩ := printDecNat_headD (ws.getD 6 0 / 256)
    have hhc : (v4Tail ws).headD ' ' = c := by
      rw [hv4sh]
      rfl
    rw [v4Tail_eq, headD_append_left _ _ (printDecNat_ne_nil _), hh] at hhc
    rw [← hhc]
    exact (decCharFacts d hd).2.2.2.2.1
  have hhost : toIpv4Hostname (':' :: ':' :: v4Tail ws) = none := by
    rw [hv4sh]
    exact toIpv4Hostname_none_third c rest hcf
  have hth : toHostname ws = '[' :: (':' :: ':' :: v4Tail ws) ++ [']'] := by
    unfold toHostname
    rw [hns, hhost]
    unfold toIpv6Hostname
    rw [hns]
  have hfmt : formatAuthority ws port =
      '[' :: (':' :: ':' :: v4Tail ws) ++ ']' :: portSuffix port := by
    unfold formatAuthority toText
    rw [hth,
      show ('[' :: (':' :: ':' :: v4Tail ws) ++ [']'] : List Char) =
        '[' :: ((':' :: ':' :: v4Tail ws) ++ [']']) from by simp,
      toHostName_bracket ((':' :: ':' :: v4Tail ws) ++ [']'])]
    simp
  have hcls : ∀ x ∈ ':' :: ':' :: v4Tail ws, isClass6Char x = true := by
    have := ntop6_class6 ws
    rwa [hns] at this
  have hrec := list_reconstruct ws 0 6 hlen (by omega) hzero
  have hdrop6 : ws.drop 6 = [ws.getD 6 0, ws.getD 7 0] := by
    rw [drop_step ws 6 (by omega), drop_step ws 7 (by omega), drop_all8 ws hlen]
  rw [hdrop6] at hrec
  simp only [List.take_zero, List.nil_append] at hrec
  have hpt : pton6 (':' :: ':' :: v4Tail ws) = some ws := by
    rw [pton6_entryGap, pton6Go_gap, pton6Go_v4Tail ws _ _ h6 h7 (by simp)]
    simp [pton6End, pton6Fin]
    simp [List.replicate] at hrec
    convert hrec using 2 <;> simp [List.getD]
  rw [hfmt, parseAuthority_bracket _ _ (by simp) hcls,
    parsePort_portSuffix port hp, hpt]

theorem printHexWord_length_le4 (n : Nat) (h : n < 65536) :
    (printHexWord n).length ≤ 4 := by
  by_cases h1 : n < 16
  · rw [printHexWord_lt16 n h1]
    simp
  · by_cases h2 : n < 256
    · rw [printHexWord_lt256 n (by omega) h2]
      simp
    · by_cases h3 : n < 4096
      · rw [printHexWord_lt4096 n (by omega) h3]
        simp
      · rw [printHexWord_lt65536 n (by omega) h]
        simp

theorem pton6Go_nil (words : List Nat) (colonp : Option Nat) (sawX : Bool)
    (digits val : Nat) (tok : List Char) :
    pton6Go [] words colonp sawX digits val tok = pton6End words colonp sawX val := rfl

theorem pton6End_noX (words : List Nat) (colonp : Option Nat) (val : Nat) :
    pton6End words colonp false val = pton6Fin words colonp := rfl

theorem roundtrip_case_gen_pos (ws : List Nat) (port : Nat) (b l : Nat)
    (hlen : ws.length = 8) (hw : ∀ w ∈ ws, w < 65536) (hp : port < 65536)
    (hbr : bestRun ws = some (b, l)) (hb : 0 < b) :
    parseAuthority (formatAuthority ws port) = some (ws, port) := by
  obtain ⟨hl2, hle, hzero⟩ := bestRun_spec ws b l hbr
  rw [hlen] at hle
  have hmid : ∀ j, b + l ≤ j → j < 8 → isV4Branch ws (some (b, l)) j = false := by
    intro j hj1 hj2
    apply isV4Branch_false_of
    rintro ⟨-, rfl, -⟩
    omega
  have hshape := ntop6_run_shape ws b l hbr (by omega) hle hmid
  rw [groupsRender_hexJoin_zero ws b hb (by omega) (by omega), sliceWords_zero]
    at hshape
  have hTne : ws.take b ≠ [] := by
    intro hnil
    have := congrArg List.length hnil
    simp [hlen] at this
    omega
  have hTw : ∀ w ∈ ws.take b, w < 65536 := fun w hw' =>
    hw w (List.mem_of_mem_take hw')
  have hTlen : (ws.take b).length = b := by
    simp [hlen]
    omega
  have hhead : (ntop6 ws).headD ' ' ≠ ':' := by
    rw [hshape, headD_append_left _ _ (hexJoin_ne_nil _ hTne)]
    obtain ⟨d, hd, hh⟩ := hexJoin_head (ws.take b) hTne
    rw [hh]
    exact (hexCharFacts d hd).2.2.1
  have hth : toHostname ws = '[' :: ntop6 ws ++ [']'] := by
    unfold toHostname
    rw [toIpv4Hostname_none_head _ hhead]
    rfl
  have hfmt : formatAuthority ws port =
      '[' :: ntop6 ws ++ ']' :: portSuffix port := by
    unfold formatAuthority toText
    rw [hth,
      show ('[' :: ntop6 ws ++ [']'] : List Char) = '[' :: (ntop6 ws ++ [']'])
        from by simp,
      toHostName_bracket (ntop6 ws ++ [']'])]
    simp
  have hnsne : ntop6 ws ≠ [] := by
    rw [hshape]
    simp
  rw [hfmt, parseAuthority_bracket _ _ hnsne (ntop6_class6 ws),
    parsePort_portSuffix port hp]
  by_cases hbl : b + l = 8
  · have hsh2 : ntop6 ws = hexJoin (ws.take b) ++ ':' :: [':'] := by
      rw [hshape, hbl, groupsRender_stop ws 8 8 le_rfl]
      simp
    have hrec := list_reconstruct ws b l hlen (by omega) hzero
    rw [hbl, drop_all8 ws hlen, List.append_nil] at hrec
    have hpt : pton6 (ntop6 ws) = some ws := by
      rw [hsh2,
        pton6_entryPlain _ (by rw [← hsh2]; exact hnsne) (by rw [← hsh2]; exact hhead),
        pton6Go_seg (ws.take b) [':'] [] none [] hTne hTw
          (by simp only [List.length_nil, Nat.zero_add, hTlen]; omega) (by simp),
        pton6Go_gap, pton6Go_nil, pton6End_noX]
      simp only [List.nil_append]
      simp [pton6Fin, hTlen, show ¬(b = 8) from by omega, List.take_take,
        List.drop_take, show 8 - b = l from by omega]
      exact hrec
    rw [hpt]
  · have hDne : ws.drop (b + l) ≠ [] := by
      intro hnil
      have := congrArg List.length hnil
      simp [hlen] at this
      omega
    have hDw : ∀ w ∈ ws.drop (b + l), w < 65536 := fun w hw' =>
      hw w (List.mem_of_mem_drop hw')
    have hsh2 : ntop6 ws =
        hexJoin (ws.take b) ++ ':' :: (':' :: hexJoin (ws.drop (b + l))) := by
      rw [hshape, if_neg hbl,
        groupsRender_hexJoin_pos ws (8 - (b + l)) (b + l) 8 (by omega) (by omega)
          (by omega) (by omega) (by omega),
        sliceWords_toEnd ws (b + l) hlen]
      simp
    have hpt : pton6 (ntop6 ws) = some ws := by
      rw [hsh2,
        pton6_entryPlain _ (by rw [← hsh2]; exact hnsne) (by rw [← hsh2]; exact hhead),
        pton6Go_seg (ws.take b) (':' :: hexJoin (ws.drop (b + l))) [] none []
          hTne hTw (by simp only [List.length_nil, Nat.zero_add, hTlen]; omega)
          (by simp),
        pton6Go_gap]
      simp only [List.nil_append]
      rw [pton6Go_segEnd (ws.drop (b + l)) (ws.take b) (some (ws.take b).length) []
        hDne hDw (by simp only [hTlen, List.length_drop, hlen]; omega)]
      have hTD : (ws.take b ++ ws.drop (b + l)).length = 8 - l := by
        simp [hlen]
        omega
      simp only [pton6Fin]
      rw [if_neg (by rw [hTD]; omega), List.take_left, List.drop_left, hTD,
        show 8 - (8 - l) = l from by omega]
      exact congrArg some (list_reconstruct ws b l hlen (by omega) hzero)
    rw [hpt]

theorem roundtrip_case_gen_zero (ws : List Nat) (port : Nat) (l : Nat)
    (hlen : ws.length = 8) (hw : ∀ w ∈ ws, w < 65536) (hp : port < 65536)
    (hbr : bestRun ws = some (0, l)) (hnot6 : l ≠ 6)
    (hnot5 : ¬(l = 5 ∧ ws.getD 5 0 = 0xffff)) :
    parseAuthority (formatAuthority ws port) = some (ws, port) := by
  obtain ⟨hl2, hle, hzero⟩ := bestRun_spec ws 0 l hbr
  rw [hlen] at hle
  have hmid : ∀ j, 0 + l ≤ j → j < 8 → isV4Branch ws (some (0, l)) j = false := by
    intro j hj1 hj2
    apply isV4Branch_false_of
    rintro ⟨rfl, -, hdis⟩
    rcases hdis with h | ⟨h, -⟩ | ⟨h, hf⟩
    · exact hnot6 h
    · omega
    · exact hnot5 ⟨h, hf⟩
  have hshape := ntop6_run_shape ws 0 l hbr (by omega) hle hmid
  rw [groupsRender_stop ws 0 0 le_rfl, List.nil_append] at hshape
  simp only [Nat.zero_add] at hshape
  by_cases hbl : l = 8
  · subst hbl
    have hns : ntop6 ws = [':', ':'] := by
      rw [hshape, groupsRender_stop ws 8 8 le_rfl]
      simp
    have hhost : toIpv4Hostname (ntop6 ws) = none := by
      rw [hns]
      exact toIpv4Hostname_none_short _ (by decide)
    have hth : toHostname ws = '[' :: ntop6 ws ++ [']'] := by
      unfold toHostname
      rw [hhost]
      rfl
    have hfmt : formatAuthority ws port =
        '[' :: ntop6 ws ++ ']' :: portSuffix port := by
      unfold formatAuthority toText
      rw [hth,
        show ('[' :: ntop6 ws ++ [']'] : List Char) = '[' :: (ntop6 ws ++ [']'])
          from by simp,
        toHostName_bracket (ntop6 ws ++ [']'])]
      simp
    have hnsne : ntop6 ws ≠ [] := by
      rw [hns]
      simp
    have hrec := list_reconstruct ws 0 8 hlen (by omega) hzero
    rw [drop_all8 ws hlen] at hrec
    simp only [List.take_zero, List.nil_append, List.append_nil] at hrec
    have hpt : pton6 (ntop6 ws) = some ws := by
      rw [hns, show pton6 [':', ':'] = some [0, 0, 0, 0, 0, 0, 0, 0] from by decide,
        show ([0, 0, 0, 0, 0, 0, 0, 0] : List Nat) = List.replicate 8 0 from rfl,
        hrec]
    rw [hfmt, parseAuthority_bracket _ _ hnsne (ntop6_class6 ws),
      parsePort_portSuffix port hp, hpt]
  · have hDne : ws.drop l ≠ [] := by
      intro hnil
      have := congrArg List.length hnil
      simp [hlen] at this
      omega
    have hDw : ∀ w ∈ ws.drop l, w < 65536 := fun w hw' =>
      hw w (List.mem_of_mem_drop hw')
    have hsh2 : ntop6 ws = ':' :: ':' :: hexJoin (ws.drop l) := by
      rw [hshape, if_neg hbl,
        groupsRender_hexJoin_pos ws (8 - l) l 8 (by omega) (by omega) (by omega)
          (by omega) (by omega),
        sliceWords_toEnd ws l hlen]
      simp
    have hhost : toIpv4Hostname (ntop6 ws) = none := by
      rw [hsh2]
      by_cases h7 : l = 7
      · subst h7
        have hd7 : ws.drop 7 = [ws.getD 7 0] := by
          rw [drop_step ws 7 (by omega), drop_all8 ws hlen]
        rw [hd7]
        apply toIpv4Hostname_none_short
        have hple := printHexWord_length_le4 (ws.getD 7 0)
          (getD_lt_of_forall ws 65536 7 hw (by omega))
        simp only [hexJoin, List.length_cons]
        omega
      · by_cases h5 : l = 5
        · subst h5
          have hd5 : ws.drop 5 = [ws.getD 5 0, ws.getD 6 0, ws.getD 7 0] := by
            rw [drop_step ws 5 (by omega), drop_step ws 6 (by omega),
              drop_step ws 7 (by omega), drop_all8 ws hlen]
          rw [hd5]
          exact toIpv4Hostname_none_gapHex3 _ _ _
            (getD_lt_of_forall ws 65536 5 hw (by omega))
            (fun hf => hnot5 ⟨rfl, hf⟩)
        · have hsh3 : ws.drop l = ws.getD l 0 :: ws.getD (l + 1) 0 ::
              ws.getD (l + 1 + 1) 0 :: ws.drop (l + 1 + 1 + 1) := by
            rw [drop_step ws l (by omega), drop_step ws (l + 1) (by omega),
              drop_step ws (l + 1 + 1) (by omega)]
          have htl : ws.drop (l + 1 + 1 + 1) ≠ [] := by
            intro hnil
            have := congrArg List.length hnil
            simp [hlen] at this
            omega
          rw [hsh3]
          refine toIpv4Hostname_none_colonLate _ ?_
          show ':' ∈ (hexJoin (ws.getD l 0 :: ws.getD (l + 1) 0 ::
            ws.getD (l + 1 + 1) 0 :: ws.drop (l + 1 + 1 + 1))).drop 5
          exact hexJoin_colon_drop5 _ _ _ _ htl
    have hth : toHostname ws = '[' :: ntop6 ws ++ [']'] := by
      unfold toHostname
      rw [hhost]
      rfl
    have hfmt : formatAuthority ws port =
        '[' :: ntop6 ws ++ ']' :: portSuffix port := by
      unfold formatAuthority toText
      rw [hth,
        show ('[' :: ntop6 ws ++ [']'] : List Char) = '[' :: (ntop6 ws ++ [']'])
          from by simp,
        toHostName_bracket (ntop6 ws ++ [']'])]
      simp
    have hnsne : ntop6 ws ≠ [] := by
      rw [hsh2]
      simp
    have hrec := list_reconstruct ws 0 l hlen (by omega) hzero
    simp only [List.take_zero, List.nil_append, Nat.zero_add] at hrec
    have hpt : pton6 (ntop6 ws) = some ws := by
      rw [hsh2, pton6_entryGap, pton6Go_gap]
      simp only [List.length_nil]
      rw [pton6Go_segEnd (ws.drop l) [] (some 0) [] hDne hDw
        (by simp only [List.length_nil, Nat.zero_add, List.length_drop, hlen]; omega)]
      simp only [List.nil_append, pton6Fin, List.take_zero, List.drop_zero,
        List.length_drop, hlen]
      rw [if_neg (by omega), show 8 - (8 - l) = l from by omega]
      exact congrArg some hrec
    rw [hfmt, parseAuthority_bracket _ _ hnsne (ntop6_class6 ws),
      parsePort_portSuffix port hp, hpt]

theorem parse_format_roundtrip (ws : List Nat) (port : Nat)
    (hlen : ws.length = 8) (hw : ∀ w ∈ ws, w < 65536) (hp : port < 65536) :
    parseAuthority (formatAuthority ws port) = some (ws, port) := by
  rcases hbr : bestRun ws with _ | ⟨b, l⟩
  · exact roundtrip_case_none ws port hlen hw hp hbr
  · by_cases hb : b = 0
    · subst hb
      by_cases h6 : l = 6
      · subst h6
        exact roundtrip_case_v46 ws port hlen hw hp hbr
      · by_cases h5 : l = 5 ∧ ws.getD 5 0 = 0xffff
        · obtain ⟨h51, h52⟩ := h5
          subst h51
          exact roundtrip_case_mapped ws port hlen hw hp hbr h52
        · exact roundtrip_case_gen_zero ws port l hlen hw hp hbr h6 h5
    · exact roundtrip_case_gen_pos ws port b l hlen hw hp hbr (by omega)

/-- C4: authority round-trip — for every valid authority (eight group words
below 2^16 and a port below 2^16), parsing the serialized text form yields
the authority back: `parseAuthority (formatAuthority ws port) = some (ws, port)`.
In particular `[2001:db8::2]:42` parses to the group words of the bytes
`20 01 0d b8 00 … 02` with port 42 and those words re-serialize to the same
text, and `1.2.240.1:42` parses to the group words of the IPv4-mapped bytes
`00 … ff ff 01 02 f0 01` with port 42 and re-serializes to `1.2.240.1:42`. -/
theorem authority_text_roundtrip (ws : List Nat) (port : Nat)
    (hlen : ws.length = 8) (hw : ∀ w ∈ ws, w < 65536) (hp : port < 65536) :
    parseAuthority (formatAuthority ws port) = some (ws, port) ∧
    parseAuthority ['[', '2', '0', '0', '1', ':', 'd', 'b', '8', ':', ':', '2',
        ']', ':', '4', '2'] =
      some (bytesToWords [0x20, 0x01, 0x0d, 0xb8, 0, 0, 0, 0, 0, 0, 0, 0, 0, 0,
        0, 0x02], 42) ∧
    formatAuthority (bytesToWords [0x20, 0x01, 0x0d, 0xb8, 0, 0, 0, 0, 0, 0, 0,
        0, 0, 0, 0, 0x02]) 42 =
      ['[', '2', '0', '0', '1', ':', 'd', 'b', '8', ':', ':', '2', ']', ':',
        '4', '2'] ∧
    parseAuthority ['1', '.', '2', '.', '2', '4', '0', '.', '1', ':', '4', '2'] =
      some (bytesToWords [0, 0, 0, 0, 0, 0, 0, 0, 0, 0, 0xff, 0xff, 0x01, 0x02,
        0xf0, 0x01], 42) ∧
    formatAuthority (bytesToWords [0, 0, 0, 0, 0, 0, 0, 0, 0, 0, 0xff, 0xff,
        0x01, 0x02, 0xf0, 0x01]) 42 =
      ['1', '.', '2', '.', '2', '4', '0', '.', '1', ':', '4', '2'] :=
  ⟨parse_format_roundtrip ws port hlen hw hp, by decide, by decide, by decide,
    by decide⟩

/-- C4 witness: the round trip at the concrete authority [2001:db8::2]:42. -/
theorem authority_text_roundtrip_witness :
    (([0x2001, 0xdb8, 0, 0, 0, 0, 0, 2] : List Nat).length = 8 ∧
      (∀ w ∈ ([0x2001, 0xdb8, 0, 0, 0, 0, 0, 2] : List Nat), w < 65536) ∧
      42 < 65536) ∧
    parseAuthority (formatAuthority [0x2001, 0xdb8, 0, 0, 0, 0, 0, 2] 42) =
      some ([0x2001, 0xdb8, 0, 0, 0, 0, 0, 2], 42) :=
  ⟨⟨rfl, by decide, by decide⟩,
    (authority_text_roundtrip [0x2001, 0xdb8, 0, 0, 0, 0, 0, 2] 42 rfl
      (by decide) (by decide)).1⟩
